import Mathlib

/-!
Verification development for the schematics transform core
(src/schematics/transforms.py and src/schematics/types/compound.py).

Python values are shallowly embedded:
dicts become association lists (insertion-ordered, as in Python 3.7+),
sets become finite sets, and the Undefined sentinel is an explicit
constructor.  Dict assignment d[k] = v is modelled by py_update, which
overwrites in place when the key is present and appends otherwise,
exactly as insertion-ordered Python dicts behave.
-/

/-- Association-list model of Python dict assignment d[k] = v: if the key is
present its entry is overwritten in place, otherwise the pair is appended.
A dict never holds a duplicate key, so replacing every occurrence of k is
the same as replacing the single one. -/
def py_update {α : Type} [DecidableEq α] {β : Type} (d : List (α × β)) (k : α) (v : β) :
    List (α × β) :=
  if d.any (fun p => decide (p.1 = k)) then
    d.map (fun p => if p.1 = k then (k, v) else p)
  else d ++ [(k, v)]

/-- Model of Python dict.update(other): assign every pair of other, in order. -/
def py_update_all {α : Type} [DecidableEq α] {β : Type} (d other : List (α × β)) :
    List (α × β) :=
  other.foldl (fun acc p => py_update acc p.1 p.2) d

/-- Stable insertion of an element into a sorted list: the new element goes
after every existing element that compares less-or-equal, so elements with
equal keys keep their original relative order. -/
def insert_sorted {α : Type} (le : α → α → Bool) (x : α) : List α → List α
  | [] => [x]
  | y :: ys => if le y x then y :: insert_sorted le x ys else x :: y :: ys

/-- Stable sort, modelling Python sorted(): elements comparing equal keep
their input order. -/
def stable_sort {α : Type} (le : α → α → Bool) (l : List α) : List α :=
  l.foldl (fun acc x => insert_sorted le x acc) []

/-!
## Values

The value universe the transform loops inspect.  The loops only ever look at
identity with None and Undefined and, for compound/sized values, at len();
container payloads are irrelevant to the loops themselves (the field
converter, a parameter, owns them), so containers carry just their length.
-/

/-- Embedded Python value as seen by the transform loops.  vcoll n stands for
a compound container (list or dict) of n elements: the loops inspect no other
attribute of a container than its len(). -/
inductive Val where
  | undef
  | vnone
  | vstr (s : String)
  | vint (n : Int)
  | vcoll (size : Nat)
deriving DecidableEq, Repr

/-- Python len(value), defined for sized values only; len() on other values
raises TypeError in Python, modelled as none. -/
def val_len : Val → Option Nat
  | .vstr s => some s.length
  | .vcoll n => some n
  | _ => none

/-!
## Field descriptors

A Field Descriptor (spec section 3) as consumed by the two loops.  The
export-level constants and BaseType.get_export_level live in common.py and
base.py, which are not part of the given sources; they are modelled from
the spec below.
-/

/-- Field descriptor: the attributes of a field that the two transform
loops read.  default_value models field.default. -/
structure FieldT where
  serialized_name : Option String
  deserialize_from : List String
  is_compound : Bool
  export_level : Nat
  default_value : Val

/-- Modelled from the spec: the export-level constants are defined in
common.py, which is not under src/.  The spec fixes the total order
DROP < DEFAULT < NOT_NONE < NONEMPTY; the numbers carry only that order. -/
def DROP : Nat := 0

/-- Export level DEFAULT, see DROP. -/
def DEFAULT : Nat := 1

/-- Export level NOT_NONE, see DROP. -/
def NOT_NONE : Nat := 2

/-- Export level NONEMPTY, see DROP. -/
def NONEMPTY : Nat := 3

/-- Modelled from the spec: BaseType.get_export_level lives in base.py,
which is not under src/.  Per the spec, the effective level is the stricter
of the field policy and the context-wide override, DROP winning outright. -/
def get_export_level (field_level : Nat) (ctx_level : Option Nat) : Nat :=
  match ctx_level with
  | none => field_level
  | some o => min field_level o

/-- Output key of a field: field.serialized_name or field_name.  Python or
treats an empty string as falsy, so serialized_name = "" falls back to the
field name, both here and in import_loop's serialized_field_name. -/
def serialized_key (name : String) (f : FieldT) : String :=
  match f.serialized_name with
  | some s => if s = "" then name else s
  | none => name

/-!
## Role (transforms.py lines 306-440)

A Role is a predicate kind (the static filter function, identified by its
name, which is how Role.__eq__ compares it) together with a set of field
names.
-/

/-- The three static filter functions of Role, identified by name as
Role.__eq__ does via function.__name__. -/
inductive RoleKind where
  | wholelist
  | whitelist
  | blacklist
deriving DecidableEq, Repr

/-- Role: a filter function together with a set of field names. -/
structure Role where
  function : RoleKind
  fields : Finset String
deriving DecidableEq

/-- Role constructor wholelist(*field_list). -/
def wholelist (field_list : List String) : Role :=
  ⟨RoleKind.wholelist, field_list.toFinset⟩

/-- Role constructor whitelist(*field_list). -/
def whitelist (field_list : List String) : Role :=
  ⟨RoleKind.whitelist, field_list.toFinset⟩

/-- Role constructor blacklist(*field_list). -/
def blacklist (field_list : List String) : Role :=
  ⟨RoleKind.blacklist, field_list.toFinset⟩

/-- Role.__call__(name, value) = function(name, value, fields): true means
the field is to be skipped.  wholelist always returns False; whitelist
returns name not in seq when the set is nonempty and True otherwise;
blacklist returns name in seq when the set is nonempty and False
otherwise. -/
def Role.call (r : Role) (name : String) (value : Val) : Bool :=
  match r.function with
  | .wholelist => false
  | .whitelist => if 0 < r.fields.card then decide (name ∉ r.fields) else true
  | .blacklist => if 0 < r.fields.card then decide (name ∈ r.fields) else false

/-- Role.__add__: a new Role with the same filter function and the union of
the field sets.  The Python code unions with an arbitrary iterable of
names; the iterable is modelled as the finite set of names it yields. -/
def Role.add (r : Role) (other : Finset String) : Role :=
  ⟨r.function, r.fields ∪ other⟩

/-- Role.__sub__: a new Role with the same filter function and the
difference of the field sets. -/
def Role.sub (r : Role) (other : Finset String) : Role :=
  ⟨r.function, r.fields \ other⟩

/-- Role.__eq__: same function name and same field set. -/
def Role.eqb (a b : Role) : Bool :=
  decide (a.function = b.function) && decide (a.fields = b.fields)

/-!
## sort_dict (transforms.py lines 259-278)

sorted() computes the sort key of every item; computing a key can raise
(list.index raises ValueError when its argument is absent), which makes the
whole call fail, modelled by Option.
-/

/-- Python list.index: position of the first occurrence, ValueError (none)
when absent. -/
def list_index {α : Type} [DecidableEq α] (l : List α) (x : α) : Option Nat :=
  List.indexOf? x l

/-- Sort key of one item in sort_dict:
based_on.index(el[0] if el[0] in based_on else -1).  When the key is not in
based_on, the code looks up the integer -1 in based_on; based_on holds
strings, so that lookup always raises ValueError, modelled as none. -/
def sort_dict_key (based_on : List String) (k : String) : Option Nat :=
  if k ∈ based_on then list_index based_on k else none

/-- sort_dict: stable-sort the items by sort_dict_key; none models the
ValueError escaping when any item's key computation raises. -/
def sort_dict {β : Type} (dct : List (String × β)) (based_on : List String) :
    Option (List (String × β)) :=
  match dct.mapM (fun el => (sort_dict_key based_on el.1).map (fun i => (i, el))) with
  | some keyed => some ((stable_sort (fun a b => decide (a.1 ≤ b.1)) keyed).map (fun p => p.2))
  | none => none

/-!
## export_loop (transforms.py lines 166-256)
-/

/-- Schema data export_loop reads: the ordered declared fields, the ordered
serializables, the role table of cls._options.roles and the optional
cls._options.fields_order. -/
structure ESchema where
  fields : List (String × FieldT)
  serializables : List (String × FieldT)
  roles : List (String × Role)
  fields_order : Option (List String)

/-- atoms(cls, instance_or_dict): the chained declared fields and
serializables, each with instance_or_dict.get(field_name, Undefined). -/
def atoms (cls : ESchema) (inst : List (String × Val)) :
    List (String × FieldT × Val) :=
  (cls.fields ++ cls.serializables).map
    (fun p => (p.1, p.2, (inst.lookup p.1).getD Val.undef))

/-- Role resolution of export_loop lines 210-218: a requested role defined
on the schema wins; a truthy requested role that is undefined raises
ValueError (none) when raise_error_on_role is set; otherwise the schema's
"default" role applies, falling back to an empty wholelist. -/
def resolve_role (roles : List (String × Role)) (role : Option String)
    (raise_error_on_role : Bool) : Option Role :=
  match role with
  | some r =>
    match roles.lookup r with
    | some g => some g
    | none =>
      if r ≠ "" && raise_error_on_role then none
      else some ((roles.lookup "default").getD (wholelist []))
  | none => some ((roles.lookup "default").getD (wholelist []))

/-- Body of the export_loop per-field iteration (lines 223-251): role check,
export-level resolution, conversion of values that are neither None nor
Undefined, post-conversion filtering, and normalization of a surviving
Undefined to None.  Returns the (serialized_name, value) pair to store, or
none when the field is skipped.  The compound-emptiness test
field.is_compound and len(value) == 0 is len-based; len is undefined
(TypeError) on unsized values, which the given loops never feed it. -/
def export_field (conv : FieldT → Val → Val) (ctx_level : Option Nat)
    (gottago : Role) (name : String) (f : FieldT) (value : Val) :
    Option (String × Val) :=
  let ser := serialized_key name f
  if gottago.call name value then none
  else
    let lvl := get_export_level f.export_level ctx_level
    if lvl = DROP then none
    else
      let v := if value = Val.vnone ∨ value = Val.undef then value else conv f value
      if v = Val.undef then
        if lvl ≤ DEFAULT then none else some (ser, Val.vnone)
      else if v = Val.vnone then
        if lvl ≤ NOT_NONE then none else some (ser, Val.vnone)
      else if f.is_compound && (val_len v == some 0) then
        if lvl ≤ NONEMPTY then none else some (ser, v)
      else some (ser, v)

/-- export_loop: resolve the role, shape every atom through export_field
into the output dict, then reorder through sort_dict when the schema has a
truthy fields_order.  none models the ValueError of role resolution or of
sort_dict escaping the call. -/
def export_loop (cls : ESchema) (inst : List (String × Val))
    (conv : FieldT → Val → Val) (role : Option String)
    (raise_error_on_role : Bool) (ctx_level : Option Nat) :
    Option (List (String × Val)) :=
  match resolve_role cls.roles role raise_error_on_role with
  | none => none
  | some gottago =>
    let data := (atoms cls inst).foldl
      (fun acc t =>
        match export_field conv ctx_level gottago t.1 t.2.1 t.2.2 with
        | some kv => py_update acc kv.1 kv.2
        | none => acc) []
    match cls.fields_order with
    | some ord => if ord = [] then some data else sort_dict data ord
    | none => some data

/-!
## import_loop (transforms.py lines 34-163)

The Context fields import_loop itself reads are mapping, strict,
init_values and apply_defaults; the remaining flags of the Context bag
(partial mode, convert, validate, new, app_data and the active converter)
are consumed only by the field converter, which is a parameter here.
-/

/-- The context mapping dict: per-field alias lists, plus the reserved
model_mapping key holding per-field nested mappings for compound fields. -/
inductive AliasMap where
  | mk (aliases : List (String × List String)) (model_map : List (String × AliasMap))

/-- Alias entries of a mapping dict. -/
def AliasMap.aliases : AliasMap → List (String × List String)
  | .mk a _ => a

/-- The nested mapping dict stored under the reserved model_mapping key. -/
def AliasMap.model_map : AliasMap → List (String × AliasMap)
  | .mk _ m => m

/-- The empty mapping dict. -/
def AliasMap.empty : AliasMap := .mk [] []

/-- Context options read by import_loop itself. -/
structure ICtx where
  mapping : AliasMap
  strict : Bool
  init_values : Bool
  apply_defaults : Bool

/-- Modelled from the spec: Context._branch lives in datastructures.py,
which is not under src/.  Per the spec, branching produces a child context
that overrides only the mapping key and shares every other option. -/
def ICtx.branch (c : ICtx) (submap : AliasMap) : ICtx :=
  { c with mapping := submap }

/-- field.serialized_name when truthy: Python treats an empty string as
falsy, so both the serialized_field_name assignment and the trial-keys
append fire only for a nonempty serialized_name. -/
def ser_truthy (f : FieldT) : Option String :=
  match f.serialized_name with
  | some s => if s = "" then none else some s
  | none => none

/-- Candidate input keys for one field, in scan order (lines 122-127):
deserialize_from aliases, then context-mapping aliases, then the truthy
serialized_name, then the field name itself. -/
def trial_keys (m : AliasMap) (name : String) (f : FieldT) : List String :=
  f.deserialize_from ++ ((m.aliases.lookup name).getD []) ++
    ((ser_truthy f).elim [] (fun s => [s])) ++ [name]

/-- Scan of lines 128-130: every truthy candidate key present in the input
overwrites the value found so far, starting from Undefined. -/
def resolve_value (input : List (String × Val)) (keys : List String) : Val :=
  keys.foldl
    (fun acc k =>
      if k ≠ "" then
        match input.lookup k with
        | some v => v
        | none => acc
      else acc)
    Val.undef

/-- Statement of the claim about the scan: the last truthy key present in
the input wins; with no match the value stays Undefined. -/
def last_match_value (input : List (String × Val)) (keys : List String) : Val :=
  match (keys.filter (fun k => k ≠ "" && (input.lookup k).isSome)).getLast? with
  | some k => (input.lookup k).getD Val.undef
  | none => Val.undef

/-- Errors a field converter can raise into import_loop's per-field catch:
a FieldError or CompoundError, where a DataError (a CompoundError subclass)
additionally carries partial data (pdata). -/
inductive ConvErr where
  | fieldError (msg : String)
  | dataError (msg : String) (pdata : Val)
deriving DecidableEq, Repr

/-- An entry of import_loop's error dict: the string 'Rogue field' for an
unrecognized strict-mode key, or a caught converter error. -/
inductive ImpErr where
  | rogue
  | conv (e : ConvErr)
deriving DecidableEq, Repr

/-- Symmetric difference of two name lists viewed as sets, modelling
set(cls._fields) ^ set(cls._serializables) of line 100. -/
def symm_diff (a b : List String) : List String :=
  a.filter (fun x => decide (x ∉ b)) ++ b.filter (fun x => decide (x ∉ a))

/-- All acceptable input names (lines 100-107): the symmetric difference of
field and serializable names, each field's truthy serialized_name, its
deserialize_from aliases, and its context-mapping aliases. -/
def all_accepted_keys (flds : List (String × FieldT)) (sers : List String)
    (m : AliasMap) : List String :=
  symm_diff (flds.map Prod.fst) sers ++
    flds.flatMap (fun p =>
      ((ser_truthy p.2).elim [] (fun s => [s])) ++ p.2.deserialize_from ++
        ((m.aliases.lookup p.1).getD []))

/-- Rogue-field errors of lines 109-114: every input key outside the
accepted set is recorded as a Rogue field error. -/
def rogue_errors (input : List (String × Val)) (accepted : List String) :
    List (String × ImpErr) :=
  ((input.map Prod.fst).filter (fun k => decide (k ∉ accepted))).foldl
    (fun acc k => py_update acc k ImpErr.rogue) []

/-- Context handed to the converter for one field (lines 141-148): a
compound field gets a branch carrying the field's entry of model_mapping
(an absent entry, or an empty model_mapping, yields an empty submap). -/
def field_branch_ctx (ctx : ICtx) (name : String) (f : FieldT) : ICtx :=
  if f.is_compound then
    ctx.branch (if ctx.mapping.model_map.isEmpty then AliasMap.empty
                else (ctx.mapping.model_map.lookup name).getD AliasMap.empty)
  else ctx

/-- Per-field loop body of import_loop for supplied data, up to the
converter call: resolve the value by the trial-keys scan, apply the default
under apply_defaults, apply None under init_values, then run the converter
with the (possibly branched) context. -/
def import_field_outcome (conv : FieldT → Val → ICtx → Except ConvErr Val)
    (ctx : ICtx) (input : List (String × Val)) (name : String) (f : FieldT) :
    Except ConvErr Val :=
  let value := resolve_value input (trial_keys ctx.mapping name f)
  let value := if value = Val.undef && ctx.apply_defaults then f.default_value else value
  let value := if value = Val.undef && ctx.init_values then Val.vnone else value
  conv f value (field_branch_ctx ctx name f)

/-- The field iteration of import_loop (lines 116-157), threading the data
and error dicts.  A field whose resolved value is Undefined while its name
already sits in the (trusted) data is skipped.  With data supplied, the
default and init_values handling plus the converter call are the factored
import_field_outcome (the skip test above uses the raw resolved value, as
in the source).  A converter failure is recorded under the field's
serialized name; a DataError additionally writes its partial data into the
output under the field name. -/
def import_fields (conv : FieldT → Val → ICtx → Except ConvErr Val) (ctx : ICtx)
    (input : Option (List (String × Val))) :
    List (String × FieldT) → List (String × Val) → List (String × ImpErr) →
    List (String × Val) × List (String × ImpErr)
  | [], data, errors => (data, errors)
  | (name, f) :: rest, data, errors =>
    let value := match input with
      | some d => resolve_value d (trial_keys ctx.mapping name f)
      | none => Val.undef
    if value = Val.undef && data.any (fun p => decide (p.1 = name)) then
      import_fields conv ctx input rest data errors
    else
      match input with
      | some d =>
        match import_field_outcome conv ctx d name f with
        | .ok v => import_fields conv ctx input rest (py_update data name v) errors
        | .error e =>
          let errors2 := py_update errors (serialized_key name f) (ImpErr.conv e)
          match e with
          | .dataError _ p =>
            import_fields conv ctx input rest (py_update data name p) errors2
          | _ => import_fields conv ctx input rest data errors2
      | none =>
        let value := if value = Val.undef && ctx.apply_defaults then f.default_value else value
        let value := if value = Val.undef && ctx.init_values then Val.vnone else value
        import_fields conv ctx input rest (py_update data name value) errors

/-- import_loop (lines 34-163): start from the trusted data, record
strict-mode rogue errors, run the field iteration, and either return the
data dict or fail with the error dict paired with the snapshot of data
entries whose value is not the Undefined sentinel. -/
def import_loop (flds : List (String × FieldT)) (sers : List String)
    (input : Option (List (String × Val)))
    (conv : FieldT → Val → ICtx → Except ConvErr Val)
    (trusted : List (String × Val)) (ctx : ICtx) :
    Except (List (String × ImpErr) × List (String × Val)) (List (String × Val)) :=
  let errors0 : List (String × ImpErr) :=
    match input with
    | some d => if ctx.strict then rogue_errors d (all_accepted_keys flds sers ctx.mapping) else []
    | none => []
  let r := import_fields conv ctx input flds trusted errors0
  if r.2 = [] then .ok r.1
  else .error (r.2, r.1.filter (fun p => decide (p.2 ≠ Val.undef)))

/-!
## ListType._coerce (compound.py lines 156-172)

The dynamic isinstance dispatch is embedded as a record of the membership
flags Python tests, together with the element view each branch consumes:
items for a mapping, elems for a sequence or iterable.
-/

/-- An input object as _coerce classifies it: isinstance flags plus its
mapping items (insertion-ordered) and its sequence/iteration elements. -/
structure PyIterObj (α : Type) where
  is_list : Bool
  is_sequence : Bool
  is_mapping : Bool
  has_reversed : Bool
  is_text : Bool
  is_iterable : Bool
  items : List (String × α)
  elems : List α

/-- Lexicographic code-point order on character lists, the order Python
uses to compare strings. -/
def lex_le : List Char → List Char → Bool
  | [], _ => true
  | _ :: _, [] => false
  | a :: x, b :: y =>
    if a.toNat < b.toNat then true
    else if b.toNat < a.toNat then false
    else lex_le x y

/-- Python string comparison a <= b. -/
def str_le (a b : String) : Bool := lex_le a.data b.data

/-- The list [value[k] for k in sorted(value)]: the mapping's keys in
sorted order, each looked up in the mapping. -/
def values_sorted_by_key {α : Type} (items : List (String × α)) : List α :=
  (stable_sort str_le (items.map Prod.fst)).filterMap (fun k => items.lookup k)

/-- ListType._coerce: the isinstance ladder of lines 157-172 in source
order.  A list, a non-text Sequence, or a non-text Iterable is used as is;
an ordered mapping (one with __reversed__) yields its values in insertion
order; an unordered mapping yields its values sorted by key; text or
anything else raises ConversionError. -/
def list_coerce {α : Type} (v : PyIterObj α) : Except String (List α) :=
  if v.is_list then .ok v.elems
  else if v.is_sequence && !v.is_text then .ok v.elems
  else if v.is_mapping then
    if v.has_reversed then .ok (v.items.map Prod.snd)
    else .ok (values_sorted_by_key v.items)
  else if v.is_text then .error "Could not interpret the value as a list"
  else if v.is_iterable then .ok v.elems
  else .error "Could not interpret the value as a list"

/-- Statement of the claim's coercion ladder, in the claim's order: a
non-text sequence as is, an ordered mapping's values in insertion order, an
unordered mapping's values sorted by key, a non-text generic iterable as
is, and failure on text or anything else. -/
def list_coerce_claim {α : Type} (v : PyIterObj α) : Except String (List α) :=
  if v.is_sequence && !v.is_text then .ok v.elems
  else if v.is_mapping && v.has_reversed then .ok (v.items.map Prod.snd)
  else if v.is_mapping then .ok (values_sorted_by_key v.items)
  else if v.is_iterable && !v.is_text then .ok v.elems
  else .error "Could not interpret the value as a list"

/-!
## PolyModelType (compound.py lines 280-382)

Model classes are identified by name; each carries its optional
_claim_polymorphic hook (presence in cls.__dict__) and its registered
subclasses (the _subclasses registry of models.py).
-/

/-- The input mapping a claim hook inspects. -/
def PolyData : Type := List (String × Val)

/-- A candidate model class: its name, its optional _claim_polymorphic
hook, and its registered subclasses. -/
inductive PolyModel where
  | mk (name : String) (hook : Option (PolyData → Bool)) (subclasses : List PolyModel)

/-- Name of a model class. -/
def PolyModel.name : PolyModel → String
  | .mk n _ _ => n

/-- The optional _claim_polymorphic hook of a model class. -/
def PolyModel.hook : PolyModel → Option (PolyData → Bool)
  | .mk _ h _ => h

/-- The registered subclasses of a model class. -/
def PolyModel.subclasses : PolyModel → List PolyModel
  | .mk _ _ s => s

/-- PolyModelType configuration: the candidate classes, the
allow_subclasses flag, and the optional claim_function. -/
structure PolyModelTypeT where
  model_classes : List PolyModel
  allow_subclasses : Bool
  claim_function : Option (PolyData → Option PolyModel)

/-- The candidate enumeration of find_model: the model classes themselves,
expanded with all registered subclasses when allow_subclasses is set. -/
def poly_candidates (t : PolyModelTypeT) : List PolyModel :=
  if t.allow_subclasses then
    t.model_classes.flatMap (fun m => m :: m.subclasses)
  else t.model_classes

/-- The scan of find_model's candidate loop (lines 355-364): collect every
candidate whose hook matches, and remember the first candidate that defines
no hook as the fallback. -/
def poly_scan (data : PolyData) :
    List PolyModel → Option PolyModel → List PolyModel →
    Option PolyModel × List PolyModel
  | [], fallback, matching => (fallback, matching)
  | c :: rest, fallback, matching =>
    match c.hook with
    | some h =>
      poly_scan data rest fallback (if h data then matching ++ [c] else matching)
    | none =>
      poly_scan data rest (if fallback.isSome then fallback else some c) matching

/-- find_model (lines 344-374): delegate to claim_function when configured
(a falsy result raises); otherwise scan the candidates and choose the
fallback when nothing matched, the unique match when exactly one did, and
raise the ambiguous-input error otherwise. -/
def find_model (t : PolyModelTypeT) (data : PolyData) : Except String PolyModel :=
  match t.claim_function with
  | some f =>
    match f data with
    | some c => .ok c
    | none => .error "Input for polymorphic field did not match any model"
  | none =>
    match poly_scan data (poly_candidates t) none [] with
    | (some fallback, []) => .ok fallback
    | (_, [m]) => .ok m
    | _ => .error "Got ambiguous input for polymorphic field"

/-- A value fed to PolyModelType.convert: None, a model instance (its exact
class and the classes isinstance recognizes for it), a mapping, or anything
else. -/
inductive PolyInput where
  | pnone
  | pinst (cls : String) (mro : List String)
  | pdict (d : PolyData)
  | pother

/-- is_allowed_model (lines 317-324): isinstance against the candidate
classes when allow_subclasses is set, exact class membership otherwise.
Non-instance values satisfy neither test. -/
def is_allowed_model (t : PolyModelTypeT) (v : PolyInput) : Bool :=
  match v with
  | .pinst cls mro =>
    if t.allow_subclasses then t.model_classes.any (fun m => decide (m.name ∈ mro))
    else t.model_classes.any (fun m => decide (m.name = cls))
  | _ => false

/-- Result of PolyModelType.convert: a value passed through unchanged, or a
newly constructed instance of the chosen class. -/
inductive PolyOut where
  | val (v : PolyInput)
  | built (cls : String) (d : PolyData)

/-- PolyModelType.convert (lines 326-342): None passes straight through; an
allowed instance passes through unchanged; a non-mapping raises
ConversionError; a mapping goes through find_model and the chosen class is
instantiated on it. -/
def poly_convert (t : PolyModelTypeT) (v : PolyInput) : Except String PolyOut :=
  match v with
  | .pnone => .ok (.val .pnone)
  | _ =>
    if is_allowed_model t v then .ok (.val v)
    else
      match v with
      | .pdict d =>
        match find_model t d with
        | .ok c => .ok (.built c.name d)
        | .error e => .error e
      | _ => .error "Please use a mapping for this field or an instance of an allowed model"

/-!
## flatten_to_dict and expand (transforms.py lines 545-637)

Keys of the flat dict are dot-joined paths; here Python strings are
embedded as character lists so that splitting on the first dot is a
structural recursion.  expand builds its result by in-place mutation of
nested dicts obtained from setdefault; the embedding threads that state
explicitly, and a mutation step Python would crash on (calling update on a
non-dict) is modelled as none.
-/

/-- Embedded Python value for the flatten/expand pair, with strings as
character lists and dicts as insertion-ordered association lists. -/
inductive PyVal where
  | pnone
  | pint (n : Int)
  | pstr (s : List Char)
  | plist (l : List PyVal)
  | pdict (d : List (List Char × PyVal))

/-- The reserved token "[]" marking an empty list. -/
def EMPTY_LIST : List Char := ['[', ']']

/-- The reserved token "{}" marking an empty dict. -/
def EMPTY_DICT : List Char := ['{', '}']

mutual

/-- Structural equality test on embedded values, agreeing with Python ==
on every comparison the flatten/expand code performs. -/
def py_beq : PyVal → PyVal → Bool
  | .pnone, .pnone => true
  | .pint n, .pint m => n == m
  | .pstr s, .pstr t => s == t
  | .plist l, .plist m => py_beq_list l m
  | .pdict d, .pdict e => py_beq_dict d e
  | _, _ => false

/-- Elementwise equality of embedded lists. -/
def py_beq_list : List PyVal → List PyVal → Bool
  | [], [] => true
  | a :: l, b :: m => py_beq a b && py_beq_list l m
  | _, _ => false

/-- Entrywise equality of embedded dicts. -/
def py_beq_dict : List (List Char × PyVal) → List (List Char × PyVal) → Bool
  | [], [] => true
  | (k, a) :: l, (k2, b) :: m => k == k2 && py_beq a b && py_beq_dict l m
  | _, _ => false

end

/-- Decimal digits of a natural number, fuel-driven so that the definition
is structurally recursive; nat_chars supplies enough fuel. -/
def nat_chars_aux : Nat → Nat → List Char → List Char
  | 0, _, acc => acc
  | fuel + 1, n, acc =>
    if n < 10 then Char.ofNat (48 + n) :: acc
    else nat_chars_aux fuel (n / 10) (Char.ofNat (48 + n % 10) :: acc)

/-- Python unicode(n) for a natural number n: its decimal digits. -/
def nat_chars (n : Nat) : List Char := nat_chars_aux (n + 1) n []

/-- Key formation of flatten_to_dict line 622: a truthy prefix is joined to
the key with a dot; a falsy prefix (None at the top call, or an empty
string) leaves the key alone. -/
def join_key (pre : List Char) (k : List Char) : List Char :=
  if pre = [] then k else pre ++ '.' :: k

mutual

/-- Loop body of flatten_to_dict (lines 621-635) for one key/value.  The
sentinel replacement of lines 625-628 is inlined into the match: Python
value == [] holds exactly for the empty list and value == {} exactly for
the empty dict, after which the value is a string and skips the isinstance
recursion.  Recursive calls leave ignore_none at its default True, as the
source does.  flat_dict.update of a recursive result is py_update_all. -/
def flatten_one (ign : Bool) (key : List Char) (v : PyVal)
    (acc : List (List Char × PyVal)) : List (List Char × PyVal) :=
  match v with
  | .plist [] => py_update acc key (.pstr EMPTY_LIST)
  | .pdict [] => py_update acc key (.pstr EMPTY_DICT)
  | .pdict d => py_update_all acc (flatten_entries true d key [])
  | .plist l => py_update_all acc (flatten_list true l 0 key [])
  | .pnone => if ign then acc else py_update acc key .pnone
  | w => py_update acc key w

/-- The flatten_to_dict iteration over dict items. -/
def flatten_entries (ign : Bool) : List (List Char × PyVal) → List Char →
    List (List Char × PyVal) → List (List Char × PyVal)
  | [], _, acc => acc
  | (k, v) :: rest, pre, acc =>
    flatten_entries ign rest pre (flatten_one ign (join_key pre k) v acc)

/-- The flatten_to_dict iteration over enumerate of a list: as
flatten_entries, with stringified indices as keys.  (With a falsy prefix
Python would leave a top-level list's integer keys unconverted; no use in
the source reaches that case, and expand would fail on non-string keys.) -/
def flatten_list (ign : Bool) : List PyVal → Nat → List Char →
    List (List Char × PyVal) → List (List Char × PyVal)
  | [], _, _, acc => acc
  | v :: rest, i, pre, acc =>
    flatten_list ign rest (i + 1) pre (flatten_one ign (join_key pre (nat_chars i)) v acc)

end

/-- flatten_to_dict: dispatch on the iterable as the source's
isinstance(instance_or_dict, dict) does (a non-dict is handed to
enumerate; a non-iterable would raise TypeError, a case no caller
reaches, modelled as empty). -/
def flatten_to_dict (x : PyVal) (pre : List Char) (ign : Bool) :
    List (List Char × PyVal) :=
  match x with
  | .pdict d => flatten_entries ign d pre []
  | .plist l => flatten_list ign l 0 pre []
  | _ => []

/-- Python key.split(".", 1): the parts around the first dot, or none
(ValueError) when the key has no dot. -/
def split_once : List Char → Option (List Char × List Char)
  | [] => none
  | c :: cs =>
    if c = '.' then some ([], cs)
    else
      match split_once cs with
      | some p => some (c :: p.1, p.2)
      | none => none

/-- The sentinel-token decoding of expand's no-separator branch (lines
566-573), without the skip-if-present guard: the guard tests the inner
call's own fresh expanded_dict, which for the singleton dicts produced by
the recursive calls is always empty. -/
def desentinel (v : PyVal) : PyVal :=
  match v with
  | .pstr s =>
    if s = EMPTY_DICT then .pdict []
    else if s = EMPTY_LIST then .plist []
    else v
  | _ => v

/-- Net effect on current_context of
current_context.update(expand({key: value}, current_context)) (line 579):
the key is scanned for its first dot (inlining key.split(".", 1) so the
recursion is structural); without a dot the inner call returns the decoded
singleton and update assigns it; with a dot, setdefault materializes the
nested dict (a previous empty-list value is replaced by a fresh dict, line
577-578), the remainder is expanded into it in place, and calling update
through a non-dict value raises AttributeError, modelled as none. -/
def expand_into_aux (ctx : List (List Char × PyVal)) (head : List Char) :
    List Char → PyVal → Option (List (List Char × PyVal))
  | [], v => some (py_update ctx head (desentinel v))
  | c :: cs, v =>
    if c = '.' then
      match ctx.lookup head with
      | none =>
        match expand_into_aux [] [] cs v with
        | some sub => some (py_update ctx head (.pdict sub))
        | none => none
      | some (.pdict d) =>
        match expand_into_aux d [] cs v with
        | some sub => some (py_update ctx head (.pdict sub))
        | none => none
      | some (.plist []) =>
        match expand_into_aux [] [] cs v with
        | some sub => some (py_update ctx head (.pdict sub))
        | none => none
      | some _ => none
    else expand_into_aux ctx (head ++ [c]) cs v

/-- expand({key: value}, ctx) merged back into ctx, see expand_into_aux. -/
def expand_into (ctx : List (List Char × PyVal)) (key : List Char) (v : PyVal) :
    Option (List (List Char × PyVal)) :=
  expand_into_aux ctx [] key v

/-- The setdefault-and-expand step of expand's separator branch, shared by
the nested calls (through expand_into_aux, which inlines it) and the
top-level loop: the nested dict for the head segment is fetched or created
(an empty-list value is replaced by a fresh dict), the remainder of the
path is expanded into it, and a non-dict value under the head segment
makes Python's update call raise AttributeError, modelled as none. -/
def expand_dot_step (ctx : List (List Char × PyVal)) (h rest : List Char)
    (v : PyVal) : Option (List (List Char × PyVal)) :=
  match ctx.lookup h with
  | none =>
    match expand_into [] rest v with
    | some sub => some (py_update ctx h (.pdict sub))
    | none => none
  | some (.pdict d) =>
    match expand_into d rest v with
    | some sub => some (py_update ctx h (.pdict sub))
    | none => none
  | some (.plist []) =>
    match expand_into [] rest v with
    | some sub => some (py_update ctx h (.pdict sub))
    | none => none
  | some _ => none

/-- One iteration of expand's top-level loop (expanded_data = None, so the
context written by the separator branch is the result dict itself).  The
no-separator branch decodes the sentinel tokens and skips a key already
present (lines 566-574); the separator branch is the setdefault-and-expand
step shared with expand_into. -/
def expand_step (acc : List (List Char × PyVal)) (key : List Char) (v : PyVal) :
    Option (List (List Char × PyVal)) :=
  match split_once key with
  | none =>
    match v with
    | .pstr s =>
      if s = EMPTY_DICT then
        if acc.any (fun p => decide (p.1 = key)) then some acc
        else some (py_update acc key (.pdict []))
      else if s = EMPTY_LIST then
        if acc.any (fun p => decide (p.1 = key)) then some acc
        else some (py_update acc key (.plist []))
      else some (py_update acc key v)
    | _ => some (py_update acc key v)
  | some (h, rest) => expand_dot_step acc h rest v

/-- The fold of expand's top-level loop over the flat dict's items. -/
def expand_list : List (List Char × PyVal) → List (List Char × PyVal) →
    Option (List (List Char × PyVal))
  | [], acc => some acc
  | (k, v) :: rest, acc =>
    match expand_step acc k v with
    | some acc2 => expand_list rest acc2
    | none => none

/-- expand(data) with no pre-existing expanded data. -/
def expand (data : List (List Char × PyVal)) :
    Option (List (List Char × PyVal)) :=
  expand_list data []

mutual

/-- Statement-side description of the flat dict of a well-formed tree: the
concatenated blocks of its entries, in order. -/
def flat_for : List (List Char × PyVal) → List (List Char × PyVal)
  | [] => []
  | (k, v) :: rest => flat_entry k v ++ flat_for rest

/-- Statement-side flat block of a single entry: empty containers become
their reserved tokens, a nonempty dict contributes its own flat dict with
the key dot-prepended, and a scalar is kept as is.  (The cases a good tree
excludes contribute nothing.) -/
def flat_entry (k : List Char) : PyVal → List (List Char × PyVal)
  | .plist [] => [(k, .pstr EMPTY_LIST)]
  | .pdict [] => [(k, .pstr EMPTY_DICT)]
  | .pdict d => (flat_for d).map (fun p => (k ++ '.' :: p.1, p.2))
  | .plist _ => []
  | .pnone => []
  | v => [(k, v)]

end

/-- A usable dict key: nonempty and dot-free. -/
def good_key (k : List Char) : Bool :=
  !k.isEmpty && !k.contains '.'

mutual

/-- A value that round-trips through flatten and expand: no None (dropped
by ignore_none), no string equal to a reserved token, lists only when
empty (expand rebuilds nonempty lists as index-keyed dicts), and dicts of
good entries. -/
def good_val : PyVal → Bool
  | .pnone => false
  | .pint _ => true
  | .pstr s => decide (s ≠ EMPTY_LIST) && decide (s ≠ EMPTY_DICT)
  | .plist l => l.isEmpty
  | .pdict d => good_entries d

/-- Entries of a round-trippable dict: good, pairwise distinct keys and
good values. -/
def good_entries : List (List Char × PyVal) → Bool
  | [] => true
  | (k, v) :: rest =>
    good_key k && !(rest.any (fun p => decide (p.1 = k))) && good_val v &&
      good_entries rest

end

/-- Proof-side fold: the nested expand steps applied to a list of entries
in order, threading the context. -/
def expand_into_list : List (List Char × PyVal) → List (List Char × PyVal) →
    Option (List (List Char × PyVal))
  | [], ctx => some ctx
  | (k, v) :: rest, ctx =>
    match expand_into ctx k v with
    | some c2 => expand_into_list rest c2
    | none => none

/-!
## Statement-side descriptions for the import-loop claims
-/

/-- Statement-side error dict of import_loop: one entry per failed field,
in schema order, keyed by the field's serialized name. -/
def import_errors_of (conv : FieldT → Val → ICtx → Except ConvErr Val)
    (ctx : ICtx) (input : List (String × Val)) (flds : List (String × FieldT)) :
    List (String × ImpErr) :=
  flds.filterMap (fun p =>
    match import_field_outcome conv ctx input p.1 p.2 with
    | .error e => some (serialized_key p.1 p.2, ImpErr.conv e)
    | .ok _ => none)

/-- Statement-side data dict of import_loop: per field, in schema order, the
converted value on success, or the partial data carried by a DataError.
Each field's entry depends only on the input and that field, so a failure
on one field never disturbs another field's entry. -/
def import_data_of (conv : FieldT → Val → ICtx → Except ConvErr Val)
    (ctx : ICtx) (input : List (String × Val)) (flds : List (String × FieldT)) :
    List (String × Val) :=
  flds.filterMap (fun p =>
    match import_field_outcome conv ctx input p.1 p.2 with
    | .ok v => some (p.1, v)
    | .error (.dataError _ pd) => some (p.1, pd)
    | .error _ => none)

/-!
## Concrete schemas and values used by the closed statements
-/

/-- A plain scalar field with export level NOT_NONE. -/
def field_not_none : FieldT := ⟨none, [], false, NOT_NONE, Val.undef⟩

/-- A one-field schema holding field_not_none under name "f". -/
def schema_not_none : ESchema := ⟨[("f", field_not_none)], [], [], none⟩

/-- A plain scalar field with export level DEFAULT and no aliases. -/
def field_plain : FieldT := ⟨none, [], false, DEFAULT, Val.undef⟩

/-- A converter rejecting the string "bad" with a conversion error and
accepting anything else unchanged. -/
def conv_reject_bad : FieldT → Val → ICtx → Except ConvErr Val := fun _ v _ =>
  if v = Val.vstr "bad" then .error (.fieldError "invalid") else .ok v

/-- An import context with an empty mapping and every flag off. -/
def ctx_plain : ICtx := ⟨AliasMap.empty, false, false, false⟩

/-- The spec's round-trip example X with "a" to an empty list, "b" to an
empty dict and "c" to a nested dict. -/
def roundtrip_example : List (List Char × PyVal) :=
  [(['a'], .plist []), (['b'], .pdict []), (['c'], .pdict [(['d'], .pint 1)])]

/-- The round-trip counterexample X with "l" to the nonempty list [5]. -/
def roundtrip_cx : List (List Char × PyVal) :=
  [(['l'], .plist [.pint 5])]

/-!
# Theorems

Helper lemmas come first, then one theorem per claim (with a witness or
counterexample where required).
-/

/-- Appending behaviour of py_update on a fresh key. -/
theorem py_update_fresh {α : Type} [DecidableEq α] {β : Type}
    (d : List (α × β)) (k : α) (v : β) (h : ∀ p ∈ d, p.1 ≠ k) :
    py_update d k v = d ++ [(k, v)] := by
  unfold py_update
  rw [if_neg]
  simp only [List.any_eq_true, decide_eq_true_eq, not_exists]
  intro p hp
  exact h p hp.1 hp.2

/-- A fold of export_field under a role that skips every field leaves the
accumulator unchanged. -/
theorem export_fold_skip (conv : FieldT → Val → Val) (lvl : Option Nat)
    (g : Role) (h : ∀ n v, g.call n v = true) :
    ∀ (l : List (String × FieldT × Val)) (acc : List (String × Val)),
      l.foldl (fun acc t =>
        match export_field conv lvl g t.1 t.2.1 t.2.2 with
        | some kv => py_update acc kv.1 kv.2
        | none => acc) acc = acc := by
  intro l
  induction l with
  | nil => intro acc; rfl
  | cons t rest ih =>
    intro acc
    have hskip : export_field conv lvl g t.1 t.2.1 t.2.2 = none := by
      unfold export_field
      rw [h t.1 t.2.2]
      simp
    simp only [List.foldl_cons, hskip]
    exact ih acc

/-- C1 (corrected): a whitelist Role constructed with an empty field-name
set excludes everything, not nothing: its filter function reports that
every (name, value) pair is to be skipped, so export of any schema under an
empty whitelist role produces an empty output. -/
theorem whitelist_empty_excludes_everything :
    (∀ (name : String) (value : Val), (whitelist []).call name value = true) ∧
    ∀ (flds sers : List (String × FieldT)) (ord : Option (List String))
      (inst : List (String × Val)) (conv : FieldT → Val → Val) (lvl : Option Nat),
      export_loop ⟨flds, sers, [("empty", whitelist [])], ord⟩ inst conv
        (some "empty") true lvl = some [] := by
  have hcall : ∀ (name : String) (value : Val), (whitelist []).call name value = true := by
    intro name value
    simp [Role.call, whitelist]
  refine ⟨hcall, ?_⟩
  intro flds sers ord inst conv lvl
  unfold export_loop
  have hrole : resolve_role [("empty", whitelist [])] (some "empty") true =
      some (whitelist []) := rfl
  rw [hrole]
  simp only [export_fold_skip conv lvl (whitelist []) hcall]
  cases ord with
  | none => rfl
  | some o =>
    by_cases ho : o = []
    · simp [ho]
    · simp only [if_neg ho]
      rfl

/-- C1 counterexample: the claim as stated says the empty whitelist skips
no field, but applied to the concrete pair ("x", "") it reports the field
is to be skipped. -/
theorem whitelist_empty_counterexample :
    (whitelist []).call "x" (Val.vstr "") = true := by decide

/-- C9 (confirmed): Role union and difference return a new Role with the
same predicate kind and the updated field set (the embedding is pure, so
the original Role value is untouched by construction); Role equality holds
exactly when the predicate kinds and the field sets agree; and the two
concrete identities of the claim hold. -/
theorem role_algebra_and_equality :
    (∀ (r : Role) (s : Finset String),
        (r.add s).function = r.function ∧ (r.add s).fields = r.fields ∪ s ∧
        (r.sub s).function = r.function ∧ (r.sub s).fields = r.fields \ s) ∧
    (∀ a b : Role, a.eqb b = true ↔ a.function = b.function ∧ a.fields = b.fields) ∧
    ((whitelist ["a", "b"]).add {"c"}).eqb (whitelist ["a", "b", "c"]) = true ∧
    ((blacklist ["a"]).sub {"a"}).eqb (blacklist []) = true := by
  refine ⟨fun r s => ⟨rfl, rfl, rfl, rfl⟩, fun a b => ?_, by decide, by decide⟩
  simp [Role.eqb]

/-- C10 (confirmed): PolyModelType.convert maps the value None to None
without error, for every configuration of the field: the None test precedes
both the allowed-model check and the model-selection algorithm, so None
never reaches find_model. -/
theorem poly_convert_none_passthrough (t : PolyModelTypeT) :
    poly_convert t PolyInput.pnone = .ok (.val .pnone) := rfl

/-- C7 (code_bug): sort_dict raises ValueError as soon as the dictionary
holds a key not listed in based_on, because the sort key of such an item is
computed as based_on.index(-1) and -1 is never an element of the
string list based_on; with every key listed, the items are ordered as
based_on prescribes. -/
theorem sort_dict_unlisted_key_raises :
    sort_dict [("x", Val.vint 1), ("a", Val.vint 2)] ["a"] = none ∧
    sort_dict [("b", Val.vint 1), ("a", Val.vint 2)] ["a", "b"] =
      some [("a", Val.vint 2), ("b", Val.vint 1)] := by
  exact ⟨by decide, by decide⟩

/-- C2 (confirmed): in export_loop the post-conversion filtering drops an
Undefined result when the effective level is at most DEFAULT, a null
result when it is at most NOT_NONE, and an empty compound result when it
is at most NONEMPTY; a surviving Undefined is written as null.  Concretely,
a field at level NOT_NONE holding None is absent from the primitive
export while the same field holding the empty string is present. -/
theorem export_post_conversion_filtering
    (conv : FieldT → Val → Val) (ctx_level : Option Nat) (g : Role)
    (name : String) (f : FieldT) (value : Val)
    (hrole : g.call name value = false)
    (hdrop : get_export_level f.export_level ctx_level ≠ DROP) :
    (export_field conv ctx_level g name f value =
      (let lvl := get_export_level f.export_level ctx_level
       let v := if value = Val.vnone ∨ value = Val.undef then value else conv f value
       let ser := serialized_key name f
       if v = Val.undef then if lvl ≤ DEFAULT then none else some (ser, Val.vnone)
       else if v = Val.vnone then if lvl ≤ NOT_NONE then none else some (ser, Val.vnone)
       else if f.is_compound && (val_len v == some 0) then
         if lvl ≤ NONEMPTY then none else some (ser, v)
       else some (ser, v))) ∧
    export_loop schema_not_none [("f", Val.vnone)] (fun _ v => v) none true none = some [] ∧
    export_loop schema_not_none [("f", Val.vstr "")] (fun _ v => v) none true none =
      some [("f", Val.vstr "")] := by
  refine ⟨?_, by decide, by decide⟩
  unfold export_field
  rw [hrole]
  simp only [Bool.false_eq_true, if_false, if_neg hdrop]

/-- Closed witness for export_post_conversion_filtering: the hypotheses are
discharged at a wholelist role and a NOT_NONE field. -/
theorem export_post_conversion_filtering_witness :
    (wholelist []).call "f" (Val.vstr "x") = false ∧
    get_export_level field_not_none.export_level none ≠ DROP ∧
    (export_field (fun _ v => v) none (wholelist []) "f" field_not_none (Val.vstr "x") =
      (let lvl := get_export_level field_not_none.export_level none
       let v := if Val.vstr "x" = Val.vnone ∨ Val.vstr "x" = Val.undef then Val.vstr "x"
                else (fun _ v => v) field_not_none (Val.vstr "x")
       let ser := serialized_key "f" field_not_none
       if v = Val.undef then if lvl ≤ DEFAULT then none else some (ser, Val.vnone)
       else if v = Val.vnone then if lvl ≤ NOT_NONE then none else some (ser, Val.vnone)
       else if field_not_none.is_compound && (val_len v == some 0) then
         if lvl ≤ NONEMPTY then none else some (ser, v)
       else some (ser, v))) ∧
    export_loop schema_not_none [("f", Val.vnone)] (fun _ v => v) none true none = some [] ∧
    export_loop schema_not_none [("f", Val.vstr "")] (fun _ v => v) none true none =
      some [("f", Val.vstr "")] := by
  refine ⟨by decide, by decide, ?_⟩
  exact export_post_conversion_filtering (fun _ v => v) none (wholelist []) "f"
    field_not_none (Val.vstr "x") (by decide) (by decide)

/-- C8 (confirmed): ListType._coerce realizes the claim's coercion ladder:
a non-text sequence as is, an ordered mapping's values in insertion order,
an unordered mapping's values sorted by key, a non-text generic iterable as
is, and a conversion error on text or anything else.  The hypotheses state
the isinstance facts Python guarantees: a list is a Sequence, and text is
neither a list nor a Mapping. -/
theorem list_coerce_follows_claim_ladder {α : Type} (v : PyIterObj α)
    (hl : v.is_list = true → v.is_sequence = true)
    (ht : v.is_text = true → v.is_list = false ∧ v.is_mapping = false) :
    list_coerce v = list_coerce_claim v := by
  obtain ⟨l, s, m, r, t, i, items, elems⟩ := v
  simp only at hl ht
  cases l <;> cases s <;> cases m <;> cases t <;> cases i <;>
    simp_all [list_coerce, list_coerce_claim]

/-- Closed witness for list_coerce_follows_claim_ladder at an unordered
mapping: its values come out sorted by key. -/
theorem list_coerce_follows_claim_ladder_witness :
    ((⟨false, false, true, false, false, true, [("b", 2), ("a", 1)], []⟩ :
        PyIterObj Nat).is_list = true →
      (⟨false, false, true, false, false, true, [("b", 2), ("a", 1)], []⟩ :
        PyIterObj Nat).is_sequence = true) ∧
    ((⟨false, false, true, false, false, true, [("b", 2), ("a", 1)], []⟩ :
        PyIterObj Nat).is_text = true →
      (⟨false, false, true, false, false, true, [("b", 2), ("a", 1)], []⟩ :
        PyIterObj Nat).is_list = false ∧
      (⟨false, false, true, false, false, true, [("b", 2), ("a", 1)], []⟩ :
        PyIterObj Nat).is_mapping = false) ∧
    list_coerce (⟨false, false, true, false, false, true, [("b", 2), ("a", 1)], []⟩ :
        PyIterObj Nat) =
      list_coerce_claim (⟨false, false, true, false, false, true, [("b", 2), ("a", 1)], []⟩ :
        PyIterObj Nat) ∧
    list_coerce (⟨false, false, true, false, false, true, [("b", 2), ("a", 1)], []⟩ :
        PyIterObj Nat) = .ok [1, 2] := by
  refine ⟨by decide, by decide, ?_, rfl⟩
  exact list_coerce_follows_claim_ladder _ (by decide) (by decide)

/-- The trial-keys scan is a left fold in which every truthy present key
overwrites the accumulator, so it computes the last such key's value. -/
theorem resolve_value_foldl (input : List (String × Val)) :
    ∀ (keys : List String) (acc : Val),
      keys.foldl
        (fun acc k =>
          if k ≠ "" then
            match input.lookup k with
            | some v => v
            | none => acc
          else acc) acc =
      (match (keys.filter (fun k => k ≠ "" && (input.lookup k).isSome)).getLast? with
       | some k => (input.lookup k).getD Val.undef
       | none => acc) := by
  intro keys
  induction keys with
  | nil => intro acc; rfl
  | cons k ks ih =>
    intro acc
    rw [List.foldl_cons, ih, List.filter_cons]
    by_cases hk : (k ≠ "" && (input.lookup k).isSome) = true
    · rw [if_pos hk]
      cases hf : ks.filter (fun k => k ≠ "" && (input.lookup k).isSome) with
      | nil =>
        simp only [List.getLast?_nil, List.getLast?_singleton]
        have hk2 : ¬k = "" ∧ (input.lookup k).isSome = true := by simpa using hk
        rw [if_pos hk2.1]
        cases hlook : input.lookup k with
        | some v => rfl
        | none =>
          exfalso
          rw [hlook] at hk2
          simp at hk2
      | cons a l2 =>
        rw [List.getLast?_cons_cons]
        cases hg : (a :: l2).getLast? with
        | none =>
          rw [List.getLast?_eq_none_iff] at hg
          exact absurd hg (by simp)
        | some k2 => rfl
    · rw [if_neg hk]
      have hstep : (if k ≠ "" then
          match input.lookup k with
          | some v => v
          | none => acc
        else acc) = acc := by
        by_cases hke : k = ""
        · simp [hke]
        · have hlook : input.lookup k = none := by
            cases hlook2 : input.lookup k with
            | none => rfl
            | some v =>
              exfalso
              apply hk
              simp [hke, hlook2]
          rw [if_pos hke, hlook]
      rw [hstep]

/-- C3 (confirmed): import_loop resolves a field's value by scanning
deserialize_from aliases, then context-mapping aliases, then the truthy
serialized_name, then the field name, every present truthy key
overwriting the value found so far, so the last matching key wins; on the
concrete input holding both "x" and "y" the scan of ["x", "y"] yields the
value at "y", not the one at "x". -/
theorem import_alias_last_match_wins :
    (∀ (m : AliasMap) (name : String) (f : FieldT),
      trial_keys m name f =
        f.deserialize_from ++ ((m.aliases.lookup name).getD []) ++
          ((ser_truthy f).elim [] (fun s => [s])) ++ [name]) ∧
    (∀ (input : List (String × Val)) (keys : List String),
      resolve_value input keys = last_match_value input keys) ∧
    resolve_value [("x", Val.vint 1), ("y", Val.vint 2)] ["x", "y"] = Val.vint 2 := by
  refine ⟨fun m name f => rfl, ?_, by decide⟩
  intro input keys
  unfold resolve_value last_match_value
  rw [resolve_value_foldl input keys Val.undef]

/-- Characterization of find_model's candidate scan: the collected matches
are the candidates whose hook accepts the data, in enumeration order, and
the fallback is the first candidate without a hook (an already-set fallback
is kept). -/
theorem poly_scan_spec (data : PolyData) :
    ∀ (cands : List PolyModel) (fb : Option PolyModel) (matching : List PolyModel),
      poly_scan data cands fb matching =
        ((if fb.isSome then fb else cands.find? (fun c => c.hook.isNone)),
         matching ++ cands.filter (fun c =>
           match c.hook with
           | some h => h data
           | none => false)) := by
  intro cands
  induction cands with
  | nil =>
    intro fb matching
    cases fb <;> simp [poly_scan]
  | cons c rest ih =>
    intro fb matching
    cases hh : c.hook with
    | some h =>
      by_cases hd : h data = true
      · simp [poly_scan, hh, hd, ih, List.filter_cons, List.find?_cons]
      · simp [poly_scan, hh, hd, ih, List.filter_cons, List.find?_cons]
    | none =>
      cases fb with
      | none => simp [poly_scan, hh, ih, List.filter_cons, List.find?_cons]
      | some f => simp [poly_scan, hh, ih, List.filter_cons, List.find?_cons]

/-- C5 (confirmed): with no custom claim function, find_model chooses among
the candidates in enumeration order: the fallback is the earliest candidate
defining no disambiguation hook; a unique hook match is chosen; with no
hook match the fallback, if any, is chosen; with no match and no fallback,
or with several matches, the call fails. -/
theorem find_model_selection (t : PolyModelTypeT) (data : PolyData)
    (hclaim : t.claim_function = none) :
    find_model t data =
      (match (poly_candidates t).filter (fun c =>
          match c.hook with
          | some h => h data
          | none => false),
        (poly_candidates t).find? (fun c => c.hook.isNone) with
      | [], some f => .ok f
      | [m], _ => .ok m
      | _, _ => .error "Got ambiguous input for polymorphic field") := by
  unfold find_model
  rw [hclaim, poly_scan_spec data (poly_candidates t) none []]
  simp only [Option.isSome_none, Bool.false_eq_true, if_false, List.nil_append]
  cases hfb : (poly_candidates t).find? (fun c => c.hook.isNone) with
  | none =>
    cases hm : (poly_candidates t).filter (fun c =>
        match c.hook with
        | some h => h data
        | none => false) with
    | nil => rfl
    | cons m tl => cases tl <;> rfl
  | some f =>
    cases hm : (poly_candidates t).filter (fun c =>
        match c.hook with
        | some h => h data
        | none => false) with
    | nil => rfl
    | cons m tl => cases tl <;> rfl

/-- Closed witness for find_model_selection: two candidates, the first with
a hook matching inputs holding key "a", the second hookless; on input
holding "a" the selection applies and picks the hooked candidate. -/
theorem find_model_selection_witness :
    (PolyModelTypeT.mk
        [.mk "A" (some (fun d => d.any (fun p => p.1 == "a"))) [],
         .mk "B" none []] false none).claim_function = none ∧
    find_model (PolyModelTypeT.mk
        [.mk "A" (some (fun d => d.any (fun p => p.1 == "a"))) [],
         .mk "B" none []] false none) [("a", Val.vint 1)] =
      (match (poly_candidates (PolyModelTypeT.mk
          [.mk "A" (some (fun d => d.any (fun p => p.1 == "a"))) [],
           .mk "B" none []] false none)).filter (fun c =>
          match c.hook with
          | some h => h [("a", Val.vint 1)]
          | none => false),
        (poly_candidates (PolyModelTypeT.mk
          [.mk "A" (some (fun d => d.any (fun p => p.1 == "a"))) [],
           .mk "B" none []] false none)).find? (fun c => c.hook.isNone) with
      | [], some f => .ok f
      | [m], _ => .ok m
      | _, _ => .error "Got ambiguous input for polymorphic field") ∧
    find_model (PolyModelTypeT.mk
        [.mk "A" (some (fun d => d.any (fun p => p.1 == "a"))) [],
         .mk "B" none []] false none) [("a", Val.vint 1)] =
      .ok (.mk "A" (some (fun d => d.any (fun p => p.1 == "a"))) []) := by
  refine ⟨rfl, ?_, rfl⟩
  exact find_model_selection _ _ rfl

/-- The import-loop field iteration, on supplied data with accumulators
whose keys avoid the (pairwise distinct) field names and serialized names,
appends exactly the per-field data and error entries: each field is
processed independently of the others. -/
theorem import_fields_spec (conv : FieldT → Val → ICtx → Except ConvErr Val)
    (ctx : ICtx) (input : List (String × Val)) :
    ∀ (flds : List (String × FieldT)) (data : List (String × Val))
      (errors : List (String × ImpErr)),
      (∀ p ∈ flds, ∀ q ∈ data, q.1 ≠ p.1) →
      (flds.map Prod.fst).Nodup →
      (∀ p ∈ flds, ∀ q ∈ errors, q.1 ≠ serialized_key p.1 p.2) →
      (flds.map (fun p => serialized_key p.1 p.2)).Nodup →
      import_fields conv ctx (some input) flds data errors =
        (data ++ import_data_of conv ctx input flds,
         errors ++ import_errors_of conv ctx input flds) := by
  intro flds
  induction flds with
  | nil =>
    intro data errors _ _ _ _
    simp [import_fields, import_data_of, import_errors_of]
  | cons p rest ih =>
    obtain ⟨name, f⟩ := p
    intro data errors hd hnd he hns
    have hmem : (name, f) ∈ (name, f) :: rest := List.mem_cons_self _ _
    have hndc : name ∉ rest.map Prod.fst ∧ (rest.map Prod.fst).Nodup := by
      rw [List.map_cons, List.nodup_cons] at hnd
      exact hnd
    have hnsc : serialized_key name f ∉ rest.map (fun p => serialized_key p.1 p.2) ∧
        (rest.map (fun p => serialized_key p.1 p.2)).Nodup := by
      rw [List.map_cons, List.nodup_cons] at hns
      exact hns
    have hany : data.any (fun q => decide (q.1 = name)) = false := by
      rw [List.any_eq_false]
      intro q hq
      simp only [decide_eq_true_eq]
      exact hd (name, f) hmem q hq
    have hdR : ∀ p ∈ rest, ∀ q ∈ data, q.1 ≠ p.1 :=
      fun p hp q hq => hd p (List.mem_cons_of_mem _ hp) q hq
    have heR : ∀ p ∈ rest, ∀ q ∈ errors, q.1 ≠ serialized_key p.1 p.2 :=
      fun p hp q hq => he p (List.mem_cons_of_mem _ hp) q hq
    have hdX : ∀ (w : Val), ∀ p ∈ rest, ∀ q ∈ data ++ [(name, w)], q.1 ≠ p.1 := by
      intro w p hp q hq
      rcases List.mem_append.mp hq with h1 | h2
      · exact hdR p hp q h1
      · rw [List.mem_singleton.mp h2]
        intro heq
        apply hndc.1
        have heq2 : name = p.1 := heq
        rw [heq2]
        exact List.mem_map_of_mem Prod.fst hp
    have heX : ∀ (e : ImpErr), ∀ p ∈ rest,
        ∀ q ∈ errors ++ [(serialized_key name f, e)], q.1 ≠ serialized_key p.1 p.2 := by
      intro e p hp q hq
      rcases List.mem_append.mp hq with h1 | h2
      · exact heR p hp q h1
      · rw [List.mem_singleton.mp h2]
        intro heq
        apply hnsc.1
        have heq2 : serialized_key name f = serialized_key p.1 p.2 := heq
        rw [heq2]
        exact List.mem_map_of_mem (fun p => serialized_key p.1 p.2) hp
    have hfdata : ∀ p ∈ data, p.1 ≠ name := fun q hq => hd (name, f) hmem q hq
    have hferr : ∀ q ∈ errors, q.1 ≠ serialized_key name f :=
      fun q hq => he (name, f) hmem q hq
    simp only [import_fields, hany, Bool.and_false, Bool.false_eq_true, if_false]
    cases ho : import_field_outcome conv ctx input name f with
    | ok v =>
      dsimp only
      rw [py_update_fresh data name v hfdata,
        ih (data ++ [(name, v)]) errors (hdX v) hndc.2 heR hnsc.2]
      simp [import_data_of, import_errors_of, ho]
    | error e =>
      cases e with
      | fieldError msg =>
        dsimp only
        rw [py_update_fresh errors (serialized_key name f) (ImpErr.conv (.fieldError msg)) hferr,
          ih data (errors ++ [(serialized_key name f, ImpErr.conv (.fieldError msg))])
            hdR hndc.2 (heX (ImpErr.conv (.fieldError msg))) hnsc.2]
        simp [import_data_of, import_errors_of, ho]
      | dataError msg pd =>
        dsimp only
        rw [py_update_fresh errors (serialized_key name f) (ImpErr.conv (.dataError msg pd)) hferr,
          py_update_fresh data name pd hfdata,
          ih (data ++ [(name, pd)]) (errors ++ [(serialized_key name f, ImpErr.conv (.dataError msg pd))])
            (hdX pd) hndc.2 (heX (ImpErr.conv (.dataError msg pd))) hnsc.2]
        simp [import_data_of, import_errors_of, ho]

/-- C4 (confirmed): when at least one field fails conversion, import_loop
fails with a DataError holding one error entry per failed field keyed by
that field's serialized name, and a partial-data snapshot holding exactly
the per-field produced entries whose value is not the Undefined sentinel
(the entry of a field is a function of the input and that field alone, so
one field's failure never disturbs another field's conversion). -/
theorem import_loop_error_aggregation
    (flds : List (String × FieldT)) (sers : List String)
    (input : List (String × Val)) (conv : FieldT → Val → ICtx → Except ConvErr Val)
    (ctx : ICtx)
    (hstrict : ctx.strict = false)
    (hnd : (flds.map Prod.fst).Nodup)
    (hns : (flds.map (fun p => serialized_key p.1 p.2)).Nodup)
    (hfail : flds.any (fun p => !(import_field_outcome conv ctx input p.1 p.2).isOk) = true) :
    import_loop flds sers (some input) conv [] ctx =
      .error (import_errors_of conv ctx input flds,
        (import_data_of conv ctx input flds).filter (fun p => decide (p.2 ≠ Val.undef))) := by
  unfold import_loop
  rw [hstrict]
  simp only [Bool.false_eq_true, if_false]
  rw [import_fields_spec conv ctx input flds [] [] (by simp) hnd (by simp) hns]
  simp only [List.nil_append]
  have hne : import_errors_of conv ctx input flds ≠ [] := by
    intro h0
    rw [import_errors_of, List.filterMap_eq_nil_iff] at h0
    rcases List.any_eq_true.mp hfail with ⟨p, hp, hfp⟩
    have h1 := h0 p hp
    cases ho : import_field_outcome conv ctx input p.1 p.2 with
    | ok v =>
      rw [ho] at hfp
      simp [Except.isOk, Except.toBool] at hfp
    | error e =>
      rw [ho] at h1
      simp at h1
  rw [if_neg hne]

/-- Closed witness for import_loop_error_aggregation: importing
a = "ok", b = "bad" against a two-field schema whose converter rejects
"bad" yields partial data holding only "a" and an error dict holding only
key "b". -/
theorem import_loop_error_aggregation_witness :
    ctx_plain.strict = false ∧
    ([("a", field_plain), ("b", field_plain)].map Prod.fst).Nodup ∧
    ([("a", field_plain), ("b", field_plain)].map
      (fun p => serialized_key p.1 p.2)).Nodup ∧
    ([("a", field_plain), ("b", field_plain)].any (fun p =>
      !(import_field_outcome conv_reject_bad ctx_plain
          [("a", Val.vstr "ok"), ("b", Val.vstr "bad")] p.1 p.2).isOk)) = true ∧
    import_loop [("a", field_plain), ("b", field_plain)] []
        (some [("a", Val.vstr "ok"), ("b", Val.vstr "bad")]) conv_reject_bad [] ctx_plain =
      .error (import_errors_of conv_reject_bad ctx_plain
          [("a", Val.vstr "ok"), ("b", Val.vstr "bad")]
          [("a", field_plain), ("b", field_plain)],
        (import_data_of conv_reject_bad ctx_plain
          [("a", Val.vstr "ok"), ("b", Val.vstr "bad")]
          [("a", field_plain), ("b", field_plain)]).filter
            (fun p => decide (p.2 ≠ Val.undef))) ∧
    import_errors_of conv_reject_bad ctx_plain
        [("a", Val.vstr "ok"), ("b", Val.vstr "bad")]
        [("a", field_plain), ("b", field_plain)] =
      [("b", ImpErr.conv (ConvErr.fieldError "invalid"))] ∧
    (import_data_of conv_reject_bad ctx_plain
        [("a", Val.vstr "ok"), ("b", Val.vstr "bad")]
        [("a", field_plain), ("b", field_plain)]).filter
          (fun p => decide (p.2 ≠ Val.undef)) =
      [("a", Val.vstr "ok")] := by
  refine ⟨rfl, by decide, by decide, by decide, ?_, by decide, by decide⟩
  exact import_loop_error_aggregation [("a", field_plain), ("b", field_plain)] []
    [("a", Val.vstr "ok"), ("b", Val.vstr "bad")] conv_reject_bad ctx_plain
    rfl (by decide) (by decide) (by decide)

/-!
## Round-trip development for flatten_to_dict and expand
-/

/-- A dot-free key has no separator to split on. -/
theorem split_once_nodot : ∀ (k : List Char), '.' ∉ k → split_once k = none := by
  intro k
  induction k with
  | nil => intro h; rfl
  | cons c cs ih =>
    intro h
    have hc : ¬c = '.' := fun hc => h (hc ▸ List.mem_cons_self c cs)
    have hcs : '.' ∉ cs := fun hm => h (List.mem_cons_of_mem c hm)
    simp only [split_once, if_neg hc, ih hcs]

/-- Splitting a dot-free head joined with a dot finds exactly that head. -/
theorem split_once_append : ∀ (k r : List Char), '.' ∉ k →
    split_once (k ++ '.' :: r) = some (k, r) := by
  intro k
  induction k with
  | nil => intro r h; rfl
  | cons c cs ih =>
    intro r h
    have hc : ¬c = '.' := fun hc => h (hc ▸ List.mem_cons_self c cs)
    have hcs : '.' ∉ cs := fun hm => h (List.mem_cons_of_mem c hm)
    simp only [List.cons_append, split_once, if_neg hc]
    rw [show cs.append ('.' :: r) = cs ++ '.' :: r from rfl, ih r hcs]

/-- Inversion of split_once: a successful split reproduces the key and the
head part is dot-free. -/
theorem split_once_inv : ∀ (key h r : List Char), split_once key = some (h, r) →
    key = h ++ '.' :: r ∧ '.' ∉ h := by
  intro key
  induction key with
  | nil => intro h r hs; simp [split_once] at hs
  | cons c cs ih =>
    intro h r hs
    by_cases hc : c = '.'
    · rw [split_once, if_pos hc] at hs
      have h1 : ([] : List Char) = h ∧ cs = r := by simpa using hs
      constructor
      · rw [← h1.1, ← h1.2, hc]
        rfl
      · rw [← h1.1]
        exact List.not_mem_nil '.'
    · rw [split_once, if_neg hc] at hs
      cases hrec : split_once cs with
      | none => rw [hrec] at hs; simp at hs
      | some p =>
        rw [hrec] at hs
        have hp : c :: p.1 = h ∧ p.2 = r := by simpa using hs
        obtain ⟨hk, hd⟩ := ih p.1 p.2 (by rw [hrec])
        constructor
        · rw [← hp.1, ← hp.2, List.cons_append, ← hk]
        · rw [← hp.1]
          intro hmem
          rcases List.mem_cons.mp hmem with hx | hx
          · exact hc hx.symm
          · exact hd hx

/-- Good keys are nonempty and dot-free. -/
theorem good_key_spec (k : List Char) (h : good_key k = true) :
    k ≠ [] ∧ '.' ∉ k := by
  rcases Bool.and_eq_true .. |>.mp h with ⟨h1, h2⟩
  constructor
  · simpa using h1
  · simpa using h2

/-- Destructured form of good_entries on a cons. -/
theorem good_entries_cons {k : List Char} {v : PyVal}
    {rest : List (List Char × PyVal)}
    (h : good_entries ((k, v) :: rest) = true) :
    good_key k = true ∧ (∀ p ∈ rest, p.1 ≠ k) ∧ good_val v = true ∧
      good_entries rest = true := by
  have h' := h
  rw [good_entries] at h'
  rcases Bool.and_eq_true .. |>.mp h' with ⟨h1, h4⟩
  rcases Bool.and_eq_true .. |>.mp h1 with ⟨h2, h3⟩
  rcases Bool.and_eq_true .. |>.mp h2 with ⟨h5, h6⟩
  refine ⟨h5, ?_, h3, h4⟩
  intro p hp
  have h6' : rest.any (fun p => decide (p.1 = k)) = false := by
    cases hb : rest.any (fun p => decide (p.1 = k)) with
    | false => rfl
    | true => rw [hb] at h6; simp at h6
  have := List.any_eq_false.mp h6' p hp
  simpa using this

/-- Lookup misses when every key differs. -/
theorem lookup_eq_none_of_fresh : ∀ (d : List (List Char × PyVal)) (k : List Char),
    (∀ p ∈ d, p.1 ≠ k) → d.lookup k = none := by
  intro d k
  induction d with
  | nil => intro h; rfl
  | cons p rest ih =>
    intro h
    have hb : (k == p.1) = false := by
      simp only [beq_eq_false_iff_ne, ne_eq]
      exact fun he => h p (List.mem_cons_self _ _) he.symm
    simp only [List.lookup, hb]
    exact ih (fun q hq => h q (List.mem_cons_of_mem _ hq))

/-- Lookup finds the entry behind a fresh left part. -/
theorem lookup_append_mid : ∀ (l1 : List (List Char × PyVal)) (k : List Char)
    (c : PyVal) (l2 : List (List Char × PyVal)), (∀ p ∈ l1, p.1 ≠ k) →
    (l1 ++ (k, c) :: l2).lookup k = some c := by
  intro l1 k c l2
  induction l1 with
  | nil =>
    intro h
    simp [List.lookup]
  | cons p rest ih =>
    intro h
    have hb : (k == p.1) = false := by
      simp only [beq_eq_false_iff_ne, ne_eq]
      exact fun he => h p (List.mem_cons_self _ _) he.symm
    rw [List.cons_append]
    simp only [List.lookup, hb]
    exact ih (fun q hq => h q (List.mem_cons_of_mem _ hq))

/-- Mapping the overwrite function over entries of other keys is the
identity. -/
theorem map_update_id {α : Type} [DecidableEq α] {β : Type}
    (l : List (α × β)) (k : α) (v : β) (h : ∀ p ∈ l, p.1 ≠ k) :
    l.map (fun p => if p.1 = k then (k, v) else p) = l := by
  induction l with
  | nil => rfl
  | cons p rest ih =>
    rw [List.map_cons, if_neg (h p (List.mem_cons_self _ _)),
      ih (fun q hq => h q (List.mem_cons_of_mem _ hq))]

/-- py_update overwrites the one entry of its key in place when the
surrounding entries carry other keys. -/
theorem py_update_mid {α : Type} [DecidableEq α] {β : Type}
    (l1 : List (α × β)) (k : α) (c : β) (l2 : List (α × β)) (v : β)
    (h1 : ∀ p ∈ l1, p.1 ≠ k) (h2 : ∀ p ∈ l2, p.1 ≠ k) :
    py_update (l1 ++ (k, c) :: l2) k v = l1 ++ (k, v) :: l2 := by
  have hin : (l1 ++ (k, c) :: l2).any (fun p => decide (p.1 = k)) = true := by
    simp only [List.any_eq_true, decide_eq_true_eq]
    exact ⟨(k, c), by simp, rfl⟩
  unfold py_update
  rw [if_pos hin, List.map_append, List.map_cons,
    map_update_id l1 k v h1, map_update_id l2 k v h2]
  simp

/-- Assigning a batch of pairwise-fresh new keys is an append. -/
theorem py_update_all_append {α : Type} [DecidableEq α] {β : Type} :
    ∀ (other d : List (α × β)),
      (∀ q ∈ other, ∀ p ∈ d, p.1 ≠ q.1) → (other.map Prod.fst).Nodup →
      py_update_all d other = d ++ other := by
  intro other
  induction other with
  | nil => intro d _ _; simp [py_update_all]
  | cons q rest ih =>
    intro d hfresh hnd
    rw [List.map_cons, List.nodup_cons] at hnd
    have hstep : py_update d q.1 q.2 = d ++ [q] := by
      have := py_update_fresh d q.1 q.2
        (fun p hp => hfresh q (List.mem_cons_self _ _) p hp)
      simpa using this
    have hrest : ∀ r ∈ rest, ∀ p ∈ d ++ [q], p.1 ≠ r.1 := by
      intro r hr p hp
      rcases List.mem_append.mp hp with h1 | h2
      · exact hfresh r (List.mem_cons_of_mem _ hr) p h1
      · rw [List.mem_singleton.mp h2]
        intro he
        exact hnd.1 (he ▸ List.mem_map_of_mem Prod.fst hr)
    have : py_update_all d (q :: rest) = py_update_all (d ++ [q]) rest := by
      simp [py_update_all, hstep]
    rw [this, ih (d ++ [q]) hrest hnd.2, List.append_assoc]
    rfl

/-- join_key with an empty prefix is the identity. -/
theorem join_key_nil (k : List Char) : join_key [] k = k := rfl

/-- join_key of a nonempty key is nonempty. -/
theorem join_key_ne_nil (pre k : List Char) (h : k ≠ []) : join_key pre k ≠ [] := by
  unfold join_key
  by_cases hp : pre = []
  · rw [if_pos hp]; exact h
  · rw [if_neg hp]
    cases pre with
    | nil => exact absurd rfl hp
    | cons c cs => simp

/-- Composition of key joins: prefixing by pre then by a nonempty k is
prefixing by pre of the dot-joined path. -/
theorem join_key_assoc (pre k q : List Char) (hk : k ≠ []) :
    join_key (join_key pre k) q = join_key pre (k ++ '.' :: q) := by
  unfold join_key
  by_cases hp : pre = []
  · rw [if_pos hp, if_pos hp, if_neg hk]
  · rw [if_neg hp, if_neg hp]
    rw [if_neg (by cases pre with | nil => exact absurd rfl hp | cons c cs => simp)]
    simp

/-- join_key with a fixed prefix is injective. -/
theorem join_key_inj (pre : List Char) {a b : List Char}
    (h : join_key pre a = join_key pre b) : a = b := by
  unfold join_key at h
  by_cases hp : pre = []
  · rwa [if_pos hp, if_pos hp] at h
  · rw [if_neg hp, if_neg hp] at h
    exact List.cons_injective (List.append_cancel_left h)

/-- Every key of a flat block is the entry key itself or a dotted
extension of it. -/
theorem flat_entry_key_shape (v : PyVal) (k : List Char)
    (p : List Char × PyVal) (hp : p ∈ flat_entry k v) :
    p.1 = k ∨ ∃ r, p.1 = k ++ '.' :: r := by
  cases v with
  | pnone => simp [flat_entry] at hp
  | pint n =>
    have he : flat_entry k (PyVal.pint n) = [(k, PyVal.pint n)] := rfl
    rw [he] at hp
    left
    rw [List.mem_singleton.mp hp]
  | pstr s =>
    have he : flat_entry k (PyVal.pstr s) = [(k, PyVal.pstr s)] := rfl
    rw [he] at hp
    left
    rw [List.mem_singleton.mp hp]
  | plist l =>
    cases l with
    | nil =>
      have he : flat_entry k (PyVal.plist []) = [(k, PyVal.pstr EMPTY_LIST)] := rfl
      rw [he] at hp
      left
      rw [List.mem_singleton.mp hp]
    | cons a t =>
      have he : flat_entry k (PyVal.plist (a :: t)) = [] := rfl
      rw [he] at hp
      simp at hp
  | pdict d =>
    cases d with
    | nil =>
      have he : flat_entry k (PyVal.pdict []) = [(k, PyVal.pstr EMPTY_DICT)] := rfl
      rw [he] at hp
      left
      rw [List.mem_singleton.mp hp]
    | cons e es =>
      have he : flat_entry k (PyVal.pdict (e :: es)) =
          (flat_for (e :: es)).map (fun p => (k ++ '.' :: p.1, p.2)) := rfl
      rw [he] at hp
      rcases List.mem_map.mp hp with ⟨q, _, hq⟩
      right
      exact ⟨q.1, by rw [← hq]⟩

/-- Every key of a flat dict belongs to the block of one of its entries. -/
theorem flat_for_key_shape : ∀ (d : List (List Char × PyVal))
    (p : List Char × PyVal), p ∈ flat_for d →
    ∃ e ∈ d, (p.1 = e.1 ∨ ∃ r, p.1 = e.1 ++ '.' :: r) := by
  intro d
  induction d with
  | nil => intro p hp; simp [flat_for] at hp
  | cons e rest ih =>
    intro p hp
    rw [show flat_for (e :: rest) = flat_entry e.1 e.2 ++ flat_for rest from rfl] at hp
    rcases List.mem_append.mp hp with h1 | h2
    · exact ⟨e, List.mem_cons_self _ _, flat_entry_key_shape e.2 e.1 p h1⟩
    · rcases ih p h2 with ⟨e2, he2, hs⟩
      exact ⟨e2, List.mem_cons_of_mem _ he2, hs⟩

/-- Keys rooted at different dot-free heads differ. -/
theorem key_from_ne {a b : List Char} (ha : '.' ∉ a) (hb : '.' ∉ b)
    (hab : a ≠ b) (x y : List Char)
    (hx : x = a ∨ ∃ r, x = a ++ '.' :: r) (hy : y = b ∨ ∃ r, y = b ++ '.' :: r) :
    x ≠ y := by
  rcases hx with hx | ⟨r1, hx⟩ <;> rcases hy with hy | ⟨r2, hy⟩
  · rw [hx, hy]; exact hab
  · rw [hx, hy]
    intro he
    exact ha (he ▸ List.mem_append_right b (List.mem_cons_self '.' r2))
  · rw [hx, hy]
    intro he
    exact hb (he.symm ▸ List.mem_append_right a (List.mem_cons_self '.' r1))
  · rw [hx, hy]
    intro he
    have h1 : split_once (a ++ '.' :: r1) = some (a, r1) := split_once_append a r1 ha
    have h2 : split_once (b ++ '.' :: r2) = some (b, r2) := split_once_append b r2 hb
    rw [he, h2] at h1
    have : b = a ∧ r2 = r1 := by simpa using h1
    exact hab this.1.symm

/-- Every entry of a good dict has a good key and a good value. -/
theorem good_entries_mem : ∀ (d : List (List Char × PyVal)),
    good_entries d = true → ∀ e ∈ d, good_key e.1 = true ∧ good_val e.2 = true := by
  intro d
  induction d with
  | nil => intro _ e he; simp at he
  | cons p rest ih =>
    intro hg e he
    obtain ⟨k, v⟩ := p
    obtain ⟨hk, _, hv, hrest⟩ := good_entries_cons hg
    rcases List.mem_cons.mp he with h1 | h2
    · rw [h1]; exact ⟨hk, hv⟩
    · exact ih hrest e h2

mutual

theorem flat_entry_keys_nodup : ∀ (v : PyVal) (k : List Char),
    good_val v = true → ((flat_entry k v).map Prod.fst).Nodup
  | .pnone, k => by
    intro hv
    simp [good_val] at hv
  | .pint n, k => by
    intro hv
    have h : (flat_entry k (PyVal.pint n)).map Prod.fst = [k] := rfl
    rw [h]
    exact List.nodup_singleton k
  | .pstr s, k => by
    intro hv
    have h : (flat_entry k (PyVal.pstr s)).map Prod.fst = [k] := rfl
    rw [h]
    exact List.nodup_singleton k
  | .plist [], k => by
    intro hv
    have h : (flat_entry k (PyVal.plist [])).map Prod.fst = [k] := rfl
    rw [h]
    exact List.nodup_singleton k
  | .plist (a :: t), k => by
    intro hv
    exact absurd hv (by simp [good_val])
  | .pdict [], k => by
    intro hv
    have h : (flat_entry k (PyVal.pdict [])).map Prod.fst = [k] := rfl
    rw [h]
    exact List.nodup_singleton k
  | .pdict (e :: es), k => by
    intro hv
    have h : ((flat_entry k (PyVal.pdict (e :: es))).map Prod.fst) =
        ((flat_for (e :: es)).map Prod.fst).map (fun r => k ++ '.' :: r) := by
      have h0 : flat_entry k (PyVal.pdict (e :: es)) =
          (flat_for (e :: es)).map (fun p => (k ++ '.' :: p.1, p.2)) := rfl
      rw [h0, List.map_map, List.map_map]
      rfl
    rw [h]
    apply List.Nodup.map
    · intro x y hxy
      exact List.cons_injective (List.append_cancel_left hxy)
    · exact flat_for_keys_nodup (e :: es) hv

theorem flat_for_keys_nodup : ∀ (d : List (List Char × PyVal)),
    good_entries d = true → ((flat_for d).map Prod.fst).Nodup
  | [] => by
    intro h
    simp [flat_for]
  | (k, v) :: rest => by
    intro hg
    obtain ⟨hk, hfr, hv, hrest⟩ := good_entries_cons hg
    have h0 : flat_for ((k, v) :: rest) = flat_entry k v ++ flat_for rest := rfl
    rw [h0, List.map_append, List.nodup_append]
    refine ⟨flat_entry_keys_nodup v k hv, flat_for_keys_nodup rest hrest, ?_⟩
    intro x hx hy
    rcases List.mem_map.mp hx with ⟨p, hp, hpx⟩
    rcases List.mem_map.mp hy with ⟨q, hq, hqx⟩
    rcases flat_for_key_shape rest q hq with ⟨e, he, hshape⟩
    have hge := (good_entries_mem rest hrest e he).1
    have hne : k ≠ e.1 := fun h2 => (hfr e he) h2.symm
    apply key_from_ne (good_key_spec k hk).2 (good_key_spec e.1 hge).2 hne x x
      (by rw [← hpx]; exact flat_entry_key_shape v k p hp)
      (by rw [← hqx]; exact hshape)
    rfl

end

/-- The flat block of an entry under a joined key is the plain block with
the prefix joined onto every key. -/
theorem flat_entry_join (pre k : List Char) (v : PyVal) (hk : k ≠ []) :
    flat_entry (join_key pre k) v =
      (flat_entry k v).map (fun p => (join_key pre p.1, p.2)) := by
  have hjoin : ∀ q : List Char, join_key pre k ++ '.' :: q = join_key pre (k ++ '.' :: q) := by
    intro q
    have h1 : join_key (join_key pre k) q = join_key pre k ++ '.' :: q := by
      show (if join_key pre k = [] then q else join_key pre k ++ '.' :: q) =
        join_key pre k ++ '.' :: q
      rw [if_neg (join_key_ne_nil pre k hk)]
    rw [← h1, join_key_assoc pre k q hk]
  cases v with
  | pnone => rfl
  | pint n => rfl
  | pstr s => rfl
  | plist l => cases l with
    | nil => rfl
    | cons a t => rfl
  | pdict d => cases d with
    | nil => rfl
    | cons e es =>
      have h0 : flat_entry (join_key pre k) (PyVal.pdict (e :: es)) =
          (flat_for (e :: es)).map (fun p => (join_key pre k ++ '.' :: p.1, p.2)) := rfl
      have h1 : flat_entry k (PyVal.pdict (e :: es)) =
          (flat_for (e :: es)).map (fun p => (k ++ '.' :: p.1, p.2)) := rfl
      rw [h0, h1, List.map_map]
      apply List.map_congr_left
      intro p hp
      simp only [Function.comp]
      rw [hjoin p.1]

mutual

theorem flatten_one_eq : ∀ (v : PyVal) (key : List Char)
    (acc : List (List Char × PyVal)),
    good_val v = true → key ≠ [] →
    (∀ q ∈ flat_entry key v, ∀ p ∈ acc, p.1 ≠ q.1) →
    flatten_one true key v acc = acc ++ flat_entry key v
  | .pnone, key, acc => by
    intro hv _ _
    simp [good_val] at hv
  | .pint n, key, acc => by
    intro hv hk hfresh
    have h0 : flatten_one true key (PyVal.pint n) acc =
        py_update acc key (PyVal.pint n) := rfl
    have h1 : flat_entry key (PyVal.pint n) = [(key, PyVal.pint n)] := rfl
    rw [h0, h1, py_update_fresh acc key (PyVal.pint n)
      (fun p hp => hfresh (key, PyVal.pint n) (by rw [h1]; exact List.mem_singleton_self _) p hp)]
  | .pstr s, key, acc => by
    intro hv hk hfresh
    have h0 : flatten_one true key (PyVal.pstr s) acc =
        py_update acc key (PyVal.pstr s) := rfl
    have h1 : flat_entry key (PyVal.pstr s) = [(key, PyVal.pstr s)] := rfl
    rw [h0, h1, py_update_fresh acc key (PyVal.pstr s)
      (fun p hp => hfresh (key, PyVal.pstr s) (by rw [h1]; exact List.mem_singleton_self _) p hp)]
  | .plist [], key, acc => by
    intro hv hk hfresh
    have h0 : flatten_one true key (PyVal.plist []) acc =
        py_update acc key (PyVal.pstr EMPTY_LIST) := rfl
    have h1 : flat_entry key (PyVal.plist []) = [(key, PyVal.pstr EMPTY_LIST)] := rfl
    rw [h0, h1, py_update_fresh acc key (PyVal.pstr EMPTY_LIST)
      (fun p hp => hfresh (key, PyVal.pstr EMPTY_LIST) (by rw [h1]; exact List.mem_singleton_self _) p hp)]
  | .plist (a :: t), key, acc => by
    intro hv _ _
    exact absurd hv (by simp [good_val])
  | .pdict [], key, acc => by
    intro hv hk hfresh
    have h0 : flatten_one true key (PyVal.pdict []) acc =
        py_update acc key (PyVal.pstr EMPTY_DICT) := rfl
    have h1 : flat_entry key (PyVal.pdict []) = [(key, PyVal.pstr EMPTY_DICT)] := rfl
    rw [h0, h1, py_update_fresh acc key (PyVal.pstr EMPTY_DICT)
      (fun p hp => hfresh (key, PyVal.pstr EMPTY_DICT) (by rw [h1]; exact List.mem_singleton_self _) p hp)]
  | .pdict (e :: es), key, acc => by
    intro hv hk hfresh
    have h0 : flatten_one true key (PyVal.pdict (e :: es)) acc =
        py_update_all acc (flatten_entries true (e :: es) key []) := rfl
    have hin := flatten_entries_eq (e :: es) key [] hv
      (by intro q hq p hp; simp at hp)
    have hjoin : (flat_for (e :: es)).map (fun p => (join_key key p.1, p.2)) =
        flat_entry key (PyVal.pdict (e :: es)) := by
      have h2 : flat_entry key (PyVal.pdict (e :: es)) =
          (flat_for (e :: es)).map (fun p => (key ++ '.' :: p.1, p.2)) := rfl
      rw [h2]
      apply List.map_congr_left
      intro p hp
      have : join_key key p.1 = key ++ '.' :: p.1 := by
        unfold join_key
        rw [if_neg hk]
      rw [this]
    rw [h0, hin, List.nil_append, hjoin]
    exact py_update_all_append (flat_entry key (PyVal.pdict (e :: es))) acc
      hfresh (flat_entry_keys_nodup (PyVal.pdict (e :: es)) key hv)

theorem flatten_entries_eq : ∀ (d : List (List Char × PyVal)) (pre : List Char)
    (acc : List (List Char × PyVal)),
    good_entries d = true →
    (∀ q ∈ (flat_for d).map (fun p => (join_key pre p.1, p.2)), ∀ p ∈ acc, p.1 ≠ q.1) →
    flatten_entries true d pre acc =
      acc ++ (flat_for d).map (fun p => (join_key pre p.1, p.2))
  | [] => by
    intro pre acc _ _
    simp [flatten_entries, flat_for]
  | (k, v) :: rest => by
    intro pre acc hg hfresh
    obtain ⟨hk, hfr, hv, hrest⟩ := good_entries_cons hg
    have hkne := (good_key_spec k hk).1
    have hsplit : flat_for ((k, v) :: rest) = flat_entry k v ++ flat_for rest := rfl
    have h0 : flatten_entries true ((k, v) :: rest) pre acc =
        flatten_entries true rest pre (flatten_one true (join_key pre k) v acc) := rfl
    have hfr1 : ∀ q ∈ flat_entry (join_key pre k) v, ∀ p ∈ acc, p.1 ≠ q.1 := by
      intro q hq p hp
      rw [flat_entry_join pre k v hkne] at hq
      apply hfresh q ?_ p hp
      rw [hsplit, List.map_append]
      exact List.mem_append_left _ hq
    have hione := flatten_one_eq v (join_key pre k) acc hv
      (join_key_ne_nil pre k hkne) hfr1
    have hfresh2 : ∀ q ∈ (flat_for rest).map (fun p => (join_key pre p.1, p.2)),
        ∀ p ∈ acc ++ (flat_entry k v).map (fun p => (join_key pre p.1, p.2)),
        p.1 ≠ q.1 := by
      intro q hq p hp
      rcases List.mem_append.mp hp with hpacc | hpA
      · apply hfresh q ?_ p hpacc
        rw [hsplit, List.map_append]
        exact List.mem_append_right _ hq
      · rcases List.mem_map.mp hpA with ⟨p0, hp0, hpe⟩
        rcases List.mem_map.mp hq with ⟨q0, hq0, hqe⟩
        intro hkey
        have hp1 : p.1 = join_key pre p0.1 := by rw [← hpe]
        have hq1 : q.1 = join_key pre q0.1 := by rw [← hqe]
        rw [hp1, hq1] at hkey
        have h00 : p0.1 = q0.1 := join_key_inj pre hkey
        rcases flat_for_key_shape rest q0 hq0 with ⟨e, he, hshape⟩
        have hge := (good_entries_mem rest hrest e he).1
        have hne2 : k ≠ e.1 := fun h2 => (hfr e he) h2.symm
        exact key_from_ne (good_key_spec k hk).2 (good_key_spec e.1 hge).2 hne2
          p0.1 q0.1 (flat_entry_key_shape v k p0 hp0) hshape h00
    rw [h0, hione, flat_entry_join pre k v hkne,
      flatten_entries_eq rest pre
        (acc ++ (flat_entry k v).map (fun p => (join_key pre p.1, p.2))) hrest hfresh2,
      hsplit, List.map_append, List.append_assoc]

end

/-- The expand_into scan on a dot-free key takes the no-separator branch:
the decoded value is assigned under the accumulated head plus the key. -/
theorem expand_into_aux_nodot : ∀ (k : List Char) (ctx : List (List Char × PyVal))
    (acc0 : List Char) (v : PyVal), '.' ∉ k →
    expand_into_aux ctx acc0 k v = some (py_update ctx (acc0 ++ k) (desentinel v)) := by
  intro k
  induction k with
  | nil =>
    intro ctx acc0 v _
    rw [List.append_nil]
    rfl
  | cons c cs ih =>
    intro ctx acc0 v h
    have hc : ¬c = '.' := fun hc => h (hc ▸ List.mem_cons_self c cs)
    have hcs : '.' ∉ cs := fun hm => h (List.mem_cons_of_mem c hm)
    simp only [expand_into_aux, if_neg hc]
    rw [ih ctx (acc0 ++ [c]) v hcs, List.append_assoc]
    rfl

/-- The expand_into scan on a dotted key reaches the separator branch with
the accumulated head plus the dot-free part before the first dot. -/
theorem expand_into_aux_dot : ∀ (k : List Char) (ctx : List (List Char × PyVal))
    (acc0 r : List Char) (v : PyVal), '.' ∉ k →
    expand_into_aux ctx acc0 (k ++ '.' :: r) v = expand_dot_step ctx (acc0 ++ k) r v := by
  intro k
  induction k with
  | nil =>
    intro ctx acc0 r v _
    rw [List.append_nil]
    rfl
  | cons c cs ih =>
    intro ctx acc0 r v h
    have hc : ¬c = '.' := fun hc => h (hc ▸ List.mem_cons_self c cs)
    have hcs : '.' ∉ cs := fun hm => h (List.mem_cons_of_mem c hm)
    rw [List.cons_append]
    simp only [expand_into_aux, if_neg hc]
    rw [ih ctx (acc0 ++ [c]) r v hcs, List.append_assoc]
    rfl

/-- expand_into on a dot-free key assigns the decoded value. -/
theorem expand_into_nodot (ctx : List (List Char × PyVal)) (k : List Char)
    (v : PyVal) (h : '.' ∉ k) :
    expand_into ctx k v = some (py_update ctx k (desentinel v)) := by
  unfold expand_into
  rw [expand_into_aux_nodot k ctx [] v h, List.nil_append]

/-- expand_into on a dotted key performs the setdefault-and-expand step on
the dot-free head. -/
theorem expand_into_dot (ctx : List (List Char × PyVal)) (k r : List Char)
    (v : PyVal) (h : '.' ∉ k) :
    expand_into ctx (k ++ '.' :: r) v = expand_dot_step ctx k r v := by
  unfold expand_into
  rw [expand_into_aux_dot k ctx [] r v h, List.nil_append]

/-- The nested expand fold splits over an append. -/
theorem expand_into_list_append : ∀ (a b ctx : List (List Char × PyVal)),
    expand_into_list (a ++ b) ctx =
      (match expand_into_list a ctx with
       | some c => expand_into_list b c
       | none => none) := by
  intro a
  induction a with
  | nil => intro b ctx; rfl
  | cons e tl ih =>
    intro b ctx
    obtain ⟨k, v⟩ := e
    rw [List.cons_append]
    simp only [expand_into_list]
    cases hstep : expand_into ctx k v with
    | none => rfl
    | some c2 => exact ih b c2

/-- Expanding a block of entries whose keys are all prefixed by the same
dot-free head k updates, in place, the nested dict sitting under k. -/
theorem expand_into_mapped : ∀ (es : List (List Char × PyVal))
    (l1 l2 c c2 : List (List Char × PyVal)) (k : List Char),
    '.' ∉ k → (∀ p ∈ l1, p.1 ≠ k) → (∀ p ∈ l2, p.1 ≠ k) →
    expand_into_list es c = some c2 →
    expand_into_list (es.map (fun p => (k ++ '.' :: p.1, p.2)))
        (l1 ++ (k, PyVal.pdict c) :: l2) =
      some (l1 ++ (k, PyVal.pdict c2) :: l2) := by
  intro es
  induction es with
  | nil =>
    intro l1 l2 c c2 k _ _ _ hes
    have hc : c = c2 := by simpa [expand_into_list] using hes
    rw [List.map_nil, hc]
    rfl
  | cons e tl ih =>
    intro l1 l2 c c2 k hk h1 h2 hes
    obtain ⟨q, w⟩ := e
    simp only [expand_into_list] at hes
    cases hstep : expand_into c q w with
    | none =>
      rw [hstep] at hes
      simp at hes
    | some c1 =>
      rw [hstep] at hes
      dsimp only at hes
      rw [List.map_cons]
      simp only [expand_into_list]
      rw [expand_into_dot (l1 ++ (k, PyVal.pdict c) :: l2) k q w hk]
      unfold expand_dot_step
      rw [lookup_append_mid l1 k (PyVal.pdict c) l2 h1]
      dsimp only
      rw [hstep]
      dsimp only
      rw [py_update_mid l1 k (PyVal.pdict c) l2 (PyVal.pdict c1) h1 h2]
      exact ih l1 l2 c1 c2 k hk h1 h2 hes

/-- The flat block of a good value is never empty. -/
theorem flat_entry_ne_nil : ∀ (v : PyVal) (k : List Char),
    good_val v = true → flat_entry k v ≠ []
  | .pnone, k => by
    intro hv
    simp [good_val] at hv
  | .pint n, k => by
    intro _ h
    simp [flat_entry] at h
  | .pstr s, k => by
    intro _ h
    simp [flat_entry] at h
  | .plist [], k => by
    intro _ h
    simp [flat_entry] at h
  | .plist (a :: t), k => by
    intro hv
    simp [good_val] at hv
  | .pdict [], k => by
    intro _ h
    simp [flat_entry] at h
  | .pdict ((k2, v2) :: es), k => by
    intro hv h
    have h0 : flat_entry k (PyVal.pdict ((k2, v2) :: es)) =
        (flat_for ((k2, v2) :: es)).map (fun p => (k ++ '.' :: p.1, p.2)) := rfl
    have h1 : flat_for ((k2, v2) :: es) = flat_entry k2 v2 ++ flat_for es := rfl
    rw [h0, h1, List.map_append] at h
    have h2 := List.append_eq_nil.mp h
    have h3 : flat_entry k2 v2 = [] := by
      have := h2.1
      rwa [List.map_eq_nil] at this
    exact flat_entry_ne_nil v2 k2 (good_entries_cons hv).2.2.1 h3

mutual

theorem expand_into_entry : ∀ (v : PyVal) (k : List Char)
    (ctx : List (List Char × PyVal)),
    good_key k = true → good_val v = true → (∀ p ∈ ctx, p.1 ≠ k) →
    expand_into_list (flat_entry k v) ctx = some (ctx ++ [(k, v)])
  | .pnone, k, ctx => by
    intro _ hv _
    simp [good_val] at hv
  | .pint n, k, ctx => by
    intro hk hv hfresh
    have h1 : flat_entry k (PyVal.pint n) = [(k, PyVal.pint n)] := rfl
    rw [h1]
    simp only [expand_into_list]
    rw [expand_into_nodot ctx k (PyVal.pint n) (good_key_spec k hk).2]
    dsimp only
    rw [py_update_fresh ctx k (desentinel (PyVal.pint n)) hfresh]
    rfl
  | .pstr s, k, ctx => by
    intro hk hv hfresh
    have hs : s ≠ EMPTY_LIST ∧ s ≠ EMPTY_DICT := by
      have hv' : (decide (s ≠ EMPTY_LIST) && decide (s ≠ EMPTY_DICT)) = true := hv
      rcases Bool.and_eq_true .. |>.mp hv' with ⟨ha, hb⟩
      exact ⟨by simpa using ha, by simpa using hb⟩
    have hd : desentinel (PyVal.pstr s) = PyVal.pstr s := by
      unfold desentinel
      dsimp only
      rw [if_neg hs.2, if_neg hs.1]
    have h1 : flat_entry k (PyVal.pstr s) = [(k, PyVal.pstr s)] := rfl
    rw [h1]
    simp only [expand_into_list]
    rw [expand_into_nodot ctx k (PyVal.pstr s) (good_key_spec k hk).2]
    dsimp only
    rw [hd, py_update_fresh ctx k (PyVal.pstr s) hfresh]
  | .plist [], k, ctx => by
    intro hk hv hfresh
    have h1 : flat_entry k (PyVal.plist []) = [(k, PyVal.pstr EMPTY_LIST)] := rfl
    rw [h1]
    simp only [expand_into_list]
    rw [expand_into_nodot ctx k (PyVal.pstr EMPTY_LIST) (good_key_spec k hk).2]
    dsimp only
    have hd : desentinel (PyVal.pstr EMPTY_LIST) = PyVal.plist [] := rfl
    rw [hd, py_update_fresh ctx k (PyVal.plist []) hfresh]
  | .plist (a :: t), k, ctx => by
    intro _ hv _
    simp [good_val] at hv
  | .pdict [], k, ctx => by
    intro hk hv hfresh
    have h1 : flat_entry k (PyVal.pdict []) = [(k, PyVal.pstr EMPTY_DICT)] := rfl
    rw [h1]
    simp only [expand_into_list]
    rw [expand_into_nodot ctx k (PyVal.pstr EMPTY_DICT) (good_key_spec k hk).2]
    dsimp only
    have hd : desentinel (PyVal.pstr EMPTY_DICT) = PyVal.pdict [] := rfl
    rw [hd, py_update_fresh ctx k (PyVal.pdict []) hfresh]
  | .pdict ((k2, v2) :: es), k, ctx => by
    intro hk hv hfresh
    have hnodot := (good_key_spec k hk).2
    have h0 : flat_entry k (PyVal.pdict ((k2, v2) :: es)) =
        (flat_for ((k2, v2) :: es)).map (fun p => (k ++ '.' :: p.1, p.2)) := rfl
    have hinner := expand_into_entries ((k2, v2) :: es) [] hv (by simp)
    rw [List.nil_append] at hinner
    have hffne : flat_for ((k2, v2) :: es) ≠ [] := by
      intro hnil
      have h1 : flat_for ((k2, v2) :: es) = flat_entry k2 v2 ++ flat_for es := rfl
      rw [h1] at hnil
      exact flat_entry_ne_nil v2 k2 (good_entries_cons hv).2.2.1
        (List.append_eq_nil.mp hnil).1
    obtain ⟨e1, tl, hsplit⟩ := List.exists_cons_of_ne_nil hffne
    obtain ⟨q1, w1⟩ := e1
    rw [hsplit] at hinner
    simp only [expand_into_list] at hinner
    cases hstep : expand_into [] q1 w1 with
    | none =>
      rw [hstep] at hinner
      simp at hinner
    | some c1 =>
      rw [hstep] at hinner
      dsimp only at hinner
      rw [h0, hsplit, List.map_cons]
      simp only [expand_into_list]
      rw [expand_into_dot ctx k q1 w1 hnodot]
      unfold expand_dot_step
      rw [lookup_eq_none_of_fresh ctx k hfresh]
      dsimp only
      rw [hstep]
      dsimp only
      rw [py_update_fresh ctx k (PyVal.pdict c1) hfresh]
      have hnb := expand_into_mapped tl ctx [] c1 ((k2, v2) :: es) k hnodot hfresh
        (by simp) hinner
      simpa using hnb

theorem expand_into_entries : ∀ (d : List (List Char × PyVal))
    (ctx : List (List Char × PyVal)),
    good_entries d = true → (∀ q ∈ d, ∀ p ∈ ctx, p.1 ≠ q.1) →
    expand_into_list (flat_for d) ctx = some (ctx ++ d)
  | [] => by
    intro ctx _ _
    simp [flat_for, expand_into_list]
  | (k, v) :: rest => by
    intro ctx hg hfresh
    obtain ⟨hk, hfr, hv, hrest⟩ := good_entries_cons hg
    have h0 : flat_for ((k, v) :: rest) = flat_entry k v ++ flat_for rest := rfl
    rw [h0, expand_into_list_append,
      expand_into_entry v k ctx hk hv (fun p hp => hfresh (k, v) (List.mem_cons_self _ _) p hp)]
    dsimp only
    have hfresh2 : ∀ q ∈ rest, ∀ p ∈ ctx ++ [(k, v)], p.1 ≠ q.1 := by
      intro q hq p hp
      rcases List.mem_append.mp hp with hc | hone
      · exact hfresh q (List.mem_cons_of_mem _ hq) p hc
      · rw [List.mem_singleton.mp hone]
        exact fun he => (hfr q hq) he.symm
    rw [expand_into_entries rest (ctx ++ [(k, v)]) hrest hfresh2, List.append_assoc]
    rfl

end

/-- The top-level expand fold splits over an append. -/
theorem expand_list_append : ∀ (a b acc : List (List Char × PyVal)),
    expand_list (a ++ b) acc =
      (match expand_list a acc with
       | some c => expand_list b c
       | none => none) := by
  intro a
  induction a with
  | nil => intro b acc; rfl
  | cons e tl ih =>
    intro b acc
    obtain ⟨k, v⟩ := e
    rw [List.cons_append]
    simp only [expand_list]
    cases hstep : expand_step acc k v with
    | none => rfl
    | some c2 => exact ih b c2

/-- A top-level step on a separator-free key not yet present decodes the
sentinels and assigns, exactly as the nested step does. -/
theorem expand_step_nodot (acc : List (List Char × PyVal)) (key : List Char)
    (v : PyVal) (hs : split_once key = none) (hfresh : ∀ p ∈ acc, p.1 ≠ key) :
    expand_step acc key v = some (py_update acc key (desentinel v)) := by
  have hany : acc.any (fun p => decide (p.1 = key)) = false := by
    rw [List.any_eq_false]
    intro p hp
    simpa using hfresh p hp
  unfold expand_step
  rw [hs]
  dsimp only
  cases v with
  | pstr s =>
    dsimp only
    by_cases h1 : s = EMPTY_DICT
    · simp only [if_pos h1, hany, Bool.false_eq_true, if_false]
      rw [h1]
      rfl
    · rw [if_neg h1]
      by_cases h2 : s = EMPTY_LIST
      · simp only [if_pos h2, hany, Bool.false_eq_true, if_false]
        rw [h2]
        rfl
      · rw [if_neg h2]
        have hd : desentinel (PyVal.pstr s) = PyVal.pstr s := by
          unfold desentinel
          dsimp only
          rw [if_neg h1, if_neg h2]
        rw [hd]
  | pnone => rfl
  | pint n => rfl
  | plist l => rfl
  | pdict d => rfl

/-- A top-level step on a dotted key is the shared setdefault-and-expand
step. -/
theorem expand_step_dot (acc : List (List Char × PyVal)) (key : List Char)
    (v : PyVal) (h r : List Char) (hs : split_once key = some (h, r)) :
    expand_step acc key v = expand_dot_step acc h r v := by
  unfold expand_step
  rw [hs]

/-- On entries whose keys all carry a separator, the top-level loop and the
nested loop agree: the separator branch is shared, and the no-separator
branch (the only difference, through its skip guard) is never taken. -/
theorem expand_list_eq_into_of_dotted : ∀ (es acc : List (List Char × PyVal)),
    (∀ e ∈ es, (split_once e.1).isSome = true) →
    expand_list es acc = expand_into_list es acc := by
  intro es
  induction es with
  | nil => intro acc _; rfl
  | cons e tl ih =>
    intro acc hdot
    obtain ⟨key, v⟩ := e
    have hsome := hdot (key, v) (List.mem_cons_self _ _)
    cases hs : split_once key with
    | none =>
      rw [hs] at hsome
      simp at hsome
    | some p =>
      obtain ⟨h1, r1⟩ := p
      have hstep : expand_step acc key v = expand_into acc key v := by
        rw [expand_step_dot acc key v h1 r1 hs]
        obtain ⟨hkeq, hdf⟩ := split_once_inv key h1 r1 hs
        rw [hkeq, expand_into_dot acc h1 r1 v hdf]
      simp only [expand_list, expand_into_list, hstep]
      cases expand_into acc key v with
      | none => rfl
      | some c2 => exact ih c2 (fun e he => hdot e (List.mem_cons_of_mem _ he))

/-- The top-level expand loop rebuilds a good dict from its flat form,
appended behind whatever the accumulator already holds. -/
theorem expand_top_entries : ∀ (d acc : List (List Char × PyVal)),
    good_entries d = true → (∀ q ∈ d, ∀ p ∈ acc, p.1 ≠ q.1) →
    expand_list (flat_for d) acc = some (acc ++ d) := by
  intro d
  induction d with
  | nil =>
    intro acc _ _
    simp [flat_for, expand_list]
  | cons e rest ih =>
    obtain ⟨k, v⟩ := e
    intro acc hg hfresh
    obtain ⟨hk, hfr, hv, hrest⟩ := good_entries_cons hg
    have hfreshk : ∀ p ∈ acc, p.1 ≠ k :=
      fun p hp => hfresh (k, v) (List.mem_cons_self _ _) p hp
    have hsp : split_once k = none := split_once_nodot k (good_key_spec k hk).2
    have hblock : expand_list (flat_entry k v) acc = some (acc ++ [(k, v)]) := by
      cases v with
      | pnone => simp [good_val] at hv
      | pint n =>
        have h1 : flat_entry k (PyVal.pint n) = [(k, PyVal.pint n)] := rfl
        rw [h1]
        simp only [expand_list]
        rw [expand_step_nodot acc k (PyVal.pint n) hsp hfreshk]
        dsimp only
        rw [py_update_fresh acc k _ hfreshk]
        rfl
      | pstr s =>
        have hs2 : s ≠ EMPTY_LIST ∧ s ≠ EMPTY_DICT := by
          have hv' : (decide (s ≠ EMPTY_LIST) && decide (s ≠ EMPTY_DICT)) = true := hv
          rcases Bool.and_eq_true .. |>.mp hv' with ⟨ha, hb⟩
          exact ⟨by simpa using ha, by simpa using hb⟩
        have hd : desentinel (PyVal.pstr s) = PyVal.pstr s := by
          unfold desentinel
          dsimp only
          rw [if_neg hs2.2, if_neg hs2.1]
        have h1 : flat_entry k (PyVal.pstr s) = [(k, PyVal.pstr s)] := rfl
        rw [h1]
        simp only [expand_list]
        rw [expand_step_nodot acc k (PyVal.pstr s) hsp hfreshk]
        dsimp only
        rw [hd, py_update_fresh acc k _ hfreshk]
      | plist l =>
        cases l with
        | nil =>
          have h1 : flat_entry k (PyVal.plist []) = [(k, PyVal.pstr EMPTY_LIST)] := rfl
          rw [h1]
          simp only [expand_list]
          rw [expand_step_nodot acc k (PyVal.pstr EMPTY_LIST) hsp hfreshk]
          dsimp only
          rw [py_update_fresh acc k _ hfreshk]
          rfl
        | cons a t => simp [good_val] at hv
      | pdict dd =>
        cases dd with
        | nil =>
          have h1 : flat_entry k (PyVal.pdict []) = [(k, PyVal.pstr EMPTY_DICT)] := rfl
          rw [h1]
          simp only [expand_list]
          rw [expand_step_nodot acc k (PyVal.pstr EMPTY_DICT) hsp hfreshk]
          dsimp only
          rw [py_update_fresh acc k _ hfreshk]
          rfl
        | cons e2 es2 =>
          have h1 : flat_entry k (PyVal.pdict (e2 :: es2)) =
              (flat_for (e2 :: es2)).map (fun p => (k ++ '.' :: p.1, p.2)) := rfl
          have hdotted : ∀ e ∈ (flat_for (e2 :: es2)).map
              (fun p => (k ++ '.' :: p.1, p.2)), (split_once e.1).isSome = true := by
            intro e he
            rcases List.mem_map.mp he with ⟨p0, _, hpe⟩
            rw [← hpe]
            have := split_once_append k p0.1 (good_key_spec k hk).2
            simp [this]
          rw [h1, expand_list_eq_into_of_dotted _ acc hdotted, ← h1]
          exact expand_into_entry (PyVal.pdict (e2 :: es2)) k acc hk hv hfreshk
    have hfresh2 : ∀ q ∈ rest, ∀ p ∈ acc ++ [(k, v)], p.1 ≠ q.1 := by
      intro q hq p hp
      rcases List.mem_append.mp hp with hc | hone
      · exact hfresh q (List.mem_cons_of_mem _ hq) p hc
      · rw [List.mem_singleton.mp hone]
        exact fun he => (hfr q hq) he.symm
    have h0 : flat_for ((k, v) :: rest) = flat_entry k v ++ flat_for rest := rfl
    rw [h0, expand_list_append, hblock]
    dsimp only
    rw [ih (acc ++ [(k, v)]) hrest hfresh2, List.append_assoc]
    rfl

/-- The flatten of a good dict with no prefix is exactly its flat form. -/
theorem flatten_good_dict (d : List (List Char × PyVal))
    (h : good_entries d = true) :
    flatten_to_dict (PyVal.pdict d) [] true = flat_for d := by
  have h0 : flatten_to_dict (PyVal.pdict d) [] true = flatten_entries true d [] [] := rfl
  rw [h0, flatten_entries_eq d [] [] h (by intro q hq p hp; simp at hp), List.nil_append]
  have : (fun p : List Char × PyVal => (join_key [] p.1, p.2)) =
      fun p : List Char × PyVal => p := by
    funext p
    rw [join_key_nil]
  rw [this, List.map_id']

/-- C6 (corrected): flatten_to_dict followed by expand reproduces any
dict-shaped tree whose keys are nonempty, dot-free and pairwise distinct
and whose values are non-None scalars other than the reserved tokens,
empty lists, empty dicts, or nested dicts of the same shape.  Nonempty
lists are excluded: expand rebuilds them as index-keyed mappings. -/
theorem flatten_expand_roundtrip (d : List (List Char × PyVal))
    (h : good_entries d = true) :
    expand (flatten_to_dict (PyVal.pdict d) [] true) = some d := by
  rw [flatten_good_dict d h]
  unfold expand
  rw [expand_top_entries d [] h (by intro q hq p hp; simp at hp), List.nil_append]

/-- Closed witness for flatten_expand_roundtrip at the spec's example
X = a to the empty list, b to the empty dict, c to a nested dict: X is
reproduced exactly. -/
theorem flatten_expand_roundtrip_witness :
    good_entries roundtrip_example = true ∧
    expand (flatten_to_dict (PyVal.pdict roundtrip_example) [] true) =
      some roundtrip_example :=
  ⟨by decide, flatten_expand_roundtrip roundtrip_example (by decide)⟩

/-- C6 counterexample: on X with "l" to the nonempty list [5], the
round-trip law fails: flatten writes the path "l.0" and expand rebuilds a
dict keyed "0" where X held a list. -/
theorem flatten_expand_not_inverse :
    expand (flatten_to_dict (PyVal.pdict roundtrip_cx) [] true) ≠
      some roundtrip_cx := by
  intro heq
  have h : expand (flatten_to_dict (PyVal.pdict roundtrip_cx) [] true) =
      some [(['l'], PyVal.pdict [(['0'], PyVal.pint 5)])] := rfl
  rw [h] at heq
  simp [roundtrip_cx] at heq
